import Mathlib

/-!
Verification of the Tic-Tac-Toe-With-Q-learning repository.

Shallow embedding of the core components:
  * `Board` and its operations, from `game_logic.py` (class `Board`);
  * the minimax search player, from `src/tictactoe/minimax.py`
    (class `MinimaxPlayer`);
  * the tabular Q-learning agent, from `src/tictactoe/q_agent.py`
    (class `QLearningAgent`);
  * the end-of-game credit-assignment pass, from `trainer.py`
    (`_run_games` / `_train_self_play`).

Python floats are modelled as rationals (`ℚ`); all numeric values that
actually occur (rewards ±1, 0.5, 0; scores ±10; α, γ small decimals) are
exactly representable, and `math.inf` / `-math.inf` sentinels are modelled
as integers far outside the score range `[-10, 10]` (or as `Option` where
noted), so every comparison coincides with the float comparison.
-/

namespace TTT

/-- A cell of the 3×3 grid: `"X"`, `"O"` or `" "` (empty). -/
inductive Cell where
  | X : Cell
  | O : Cell
  | E : Cell
deriving DecidableEq, Repr

/-- `Board._board`: the ordered sequence of 9 cells. -/
abbrev Board := List Cell

/-- A fresh empty board (`Board.__init__` / `Board.empty`). -/
def emptyBoard : Board := List.replicate 9 Cell.E

/-- `WIN_LINES` from `game_logic.py`: rows, then columns, then diagonals. -/
def WIN_LINES : List (Nat × Nat × Nat) :=
  [(0, 1, 2), (3, 4, 5), (6, 7, 8),
   (0, 3, 6), (1, 4, 7), (2, 5, 8),
   (0, 4, 8), (2, 4, 6)]

/-- The `char` argument of `place_char`, after `char.upper()`:
either `"X"`, or `"O"`, or any other string. -/
inductive Ch where
  | cx : Ch
  | co : Ch
  | other : Ch
deriving DecidableEq, Repr

/-- The cell written by a successful `place_char` (unreachable for `other`). -/
def chToCell : Ch → Cell
  | Ch.cx => Cell.X
  | Ch.co => Cell.O
  | Ch.other => Cell.E

/-- The exceptions `place_char` can raise: `invalidChar` and `invalidPlace`
are the two `ValueError`s; `cellOccupied` is the distinct
`InvalidMoveError` subclass. -/
inductive PlaceError where
  | invalidChar : PlaceError
  | invalidPlace : PlaceError
  | cellOccupied : PlaceError
deriving DecidableEq, Repr

/-- `Board.place_char(char, place)` (1-based `place`), from `game_logic.py`.
Returns the raised exception (if any) together with the board state after
the call; every `raise` happens before the single mutation, so on failure
the board component is the argument unchanged. -/
def place_char (b : Board) (ch : Ch) (place : Int) : Option PlaceError × Board :=
  if ch ≠ Ch.cx ∧ ch ≠ Ch.co then
    (some PlaceError.invalidChar, b)
  else if ¬(1 ≤ place ∧ place ≤ 9) then
    (some PlaceError.invalidPlace, b)
  else
    let idx : Nat := (place - 1).toNat
    if b.getD idx Cell.E ≠ Cell.E then
      (some PlaceError.cellOccupied, b)
    else
      (none, b.set idx (chToCell ch))

/-- `Board.is_full`: `" " not in self._board`. -/
def is_full (b : Board) : Bool := decide (Cell.E ∉ b)

/-- Result of `Board.check_win`: a winning mark, or `0` (draw); `None`
(game in progress) is the `none` of the surrounding `Option`. -/
inductive Res where
  | mark : Cell → Res
  | draw : Res
deriving DecidableEq, Repr

/-- The loop of `check_win`: scan the lines in order, returning the cell at
the first line satisfying `board[a] == board[b] == board[c] != " "`. -/
def scanLines (b : Board) : List (Nat × Nat × Nat) → Option Cell
  | [] => none
  | (i, j, k) :: rest =>
    if b.getD i Cell.E = b.getD j Cell.E ∧ b.getD j Cell.E = b.getD k Cell.E ∧
        b.getD k Cell.E ≠ Cell.E then
      some (b.getD i Cell.E)
    else
      scanLines b rest

/-- `Board.check_win`, from `game_logic.py`. -/
def check_win (b : Board) : Option Res :=
  match scanLines b WIN_LINES with
  | some c => some (Res.mark c)
  | none => if is_full b then some Res.draw else none

/-- `Board.get_numeric_board`: `X ↦ 1`, `O ↦ -1`, empty `↦ 0`. -/
def numEnc : Cell → Int
  | Cell.X => 1
  | Cell.O => -1
  | Cell.E => 0

/-- The numeric encoding of a board (`NUMERIC_ENCODE` applied cellwise). -/
def get_numeric_board (b : Board) : List Int := b.map numEnc

/-- `Board.undo_move(move)` (0-based): reset the cell to empty. -/
def undo_move (b : Board) (m : Nat) : Board := b.set m Cell.E

/-- `Board.available_moves`: 0-based indices of empty cells, in ascending
order (`enumerate` order). -/
def available_moves (b : Board) : List Nat :=
  (b.enum.filter (fun p => p.2 == Cell.E)).map Prod.fst

/-! ### Specification-side outcome function (for C4)

`outcomeSpec` is written from the spec's words, to be compared with the
source-derived `check_win`: return the mark of the first complete line in
the fixed enumeration order (rows, then columns, then diagonals); else
draw when no empty cell remains; else in-progress. -/

/-- The spec's fixed line enumeration: 3 rows, 3 columns, 2 diagonals. -/
def SPEC_LINES : List (Nat × Nat × Nat) :=
  [(0, 1, 2), (3, 4, 5), (6, 7, 8),
   (0, 3, 6), (1, 4, 7), (2, 5, 8),
   (0, 4, 8), (2, 4, 6)]

/-- A line is complete: its three cells are equal and non-empty. -/
def lineComplete (b : Board) (l : Nat × Nat × Nat) : Bool :=
  decide (b.getD l.1 Cell.E = b.getD l.2.1 Cell.E ∧
    b.getD l.2.1 Cell.E = b.getD l.2.2 Cell.E ∧ b.getD l.2.2 Cell.E ≠ Cell.E)

/-- The spec's `outcome()`: first complete line's mark, else draw exactly
when no empty cell remains, else in-progress. -/
def outcomeSpec (b : Board) : Option Res :=
  match SPEC_LINES.find? (lineComplete b) with
  | some l => some (Res.mark (b.getD l.1 Cell.E))
  | none => if b.all (fun c => c != Cell.E) then some Res.draw else none

lemma scanLines_eq_find (b : Board) (ls : List (Nat × Nat × Nat)) :
    scanLines b ls = (ls.find? (lineComplete b)).map (fun l => b.getD l.1 Cell.E) := by
  induction ls with
  | nil => rfl
  | cons hd tl ih =>
    obtain ⟨i, j, k⟩ := hd
    by_cases h : b.getD i Cell.E = b.getD j Cell.E ∧ b.getD j Cell.E = b.getD k Cell.E ∧
        b.getD k Cell.E ≠ Cell.E
    · simp only [scanLines, if_pos h, List.find?]
      have hc : lineComplete b (i, j, k) = true := by
        simp only [lineComplete]; exact decide_eq_true h
      simp [hc]
    · simp only [scanLines, if_neg h, List.find?]
      have hc : lineComplete b (i, j, k) = false := by
        simp only [lineComplete]; exact decide_eq_false h
      simp [hc, ih]

lemma is_full_eq_all (b : Board) : is_full b = b.all (fun c => c != Cell.E) := by
  induction b with
  | nil => rfl
  | cons hd tl ih =>
    simp only [is_full, List.all_cons, List.mem_cons] at *
    rcases hd <;> simp_all [is_full]

/-- C4: the outcome check is a pure function of the cells; it returns the
mark of the first complete line in the fixed enumeration order (rows,
columns, diagonals), else draw (`0`) exactly when no empty cell remains,
else in-progress (`None`). -/
theorem check_win_eq_outcomeSpec (b : Board) : check_win b = outcomeSpec b := by
  simp only [check_win, outcomeSpec, scanLines_eq_find, is_full_eq_all, SPEC_LINES, WIN_LINES]
  rcases (List.find? (lineComplete b)
      [(0, 1, 2), (3, 4, 5), (6, 7, 8), (0, 3, 6), (1, 4, 7), (2, 5, 8), (0, 4, 8), (2, 4, 6)]) with
    _ | l <;> simp

/-! ### C1: failure modes of `place_char` -/

/-- C1: placing a mark fails with the invalid-char `ValueError` when the
mark is not X or O, with the invalid-place `ValueError` when the mark is
valid but the 1-based place is outside 1–9, and with the distinct
`InvalidMoveError` (`cellOccupied`) when mark and place are valid but the
cell is non-empty; the three constructors are pairwise distinct, and on
every failure the returned board is the argument unchanged. -/
theorem place_char_failure_modes (b : Board) (ch : Ch) (p : Int) :
    (ch = Ch.other → place_char b ch p = (some PlaceError.invalidChar, b)) ∧
    (ch ≠ Ch.other → ¬(1 ≤ p ∧ p ≤ 9) →
      place_char b ch p = (some PlaceError.invalidPlace, b)) ∧
    (ch ≠ Ch.other → 1 ≤ p → p ≤ 9 → b.getD (p - 1).toNat Cell.E ≠ Cell.E →
      place_char b ch p = (some PlaceError.cellOccupied, b)) ∧
    PlaceError.cellOccupied ≠ PlaceError.invalidChar ∧
    PlaceError.cellOccupied ≠ PlaceError.invalidPlace := by
  refine ⟨?_, ?_, ?_, by decide, by decide⟩
  · intro h; subst h
    simp [place_char]
  · intro hch hp
    have h1 : ¬(ch ≠ Ch.cx ∧ ch ≠ Ch.co) := by
      rcases ch <;> simp_all
    simp [place_char, h1, hp]
  · intro hch h1 h9 hocc
    have h1' : ¬(ch ≠ Ch.cx ∧ ch ≠ Ch.co) := by
      rcases ch <;> simp_all
    have hidx : (p - 1).toNat = p.toNat - 1 := by omega
    rw [hidx] at hocc
    simp [place_char, h1', h1, h9, List.getD] at hocc ⊢
    exact hocc

/-- Witness for C1 at concrete inputs: an invalid mark on the empty board,
a valid mark at place 0, and a valid mark on an occupied cell. -/
theorem place_char_failure_modes_witness :
    place_char emptyBoard Ch.other 1 = (some PlaceError.invalidChar, emptyBoard) ∧
    place_char emptyBoard Ch.cx 0 = (some PlaceError.invalidPlace, emptyBoard) ∧
    place_char (Cell.X :: List.replicate 8 Cell.E) Ch.co 1 =
      (some PlaceError.cellOccupied, Cell.X :: List.replicate 8 Cell.E) := by
  refine ⟨(place_char_failure_modes emptyBoard Ch.other 1).1 rfl,
    (place_char_failure_modes emptyBoard Ch.cx 0).2.1 (by decide) (by decide),
    (place_char_failure_modes (Cell.X :: List.replicate 8 Cell.E) Ch.co 1).2.2.1
      (by decide) (by decide) (by decide) (by decide)⟩

/-! ### C8: place / undo round trip -/

lemma set_getD_self (b : Board) (m : Nat) (hm : b.getD m Cell.E = Cell.E) :
    b.set m Cell.E = b := by
  apply List.ext_getElem
  · simp
  · intro i h1 h2
    rcases eq_or_ne i m with h | h
    · subst h
      rw [List.getElem_set_self]
      rw [List.getD_eq_getElem b Cell.E h2] at hm
      exact hm.symm
    · rw [List.getElem_set_ne (by omega)]

/-- C8: a successful `place_char` at an empty cell followed by `undo_move`
of the same 0-based index restores the board, hence its numeric encoding,
to exactly its pre-place value. -/
theorem place_undo_roundtrip (b : Board) (ch : Ch) (m : Nat)
    (hch : ch ≠ Ch.other) (hm : m ≤ 8) (hempty : b.getD m Cell.E = Cell.E) :
    (place_char b ch ((m : Int) + 1)).1 = none ∧
    get_numeric_board (undo_move (place_char b ch ((m : Int) + 1)).2 m) =
      get_numeric_board b := by
  have h1 : ¬(ch ≠ Ch.cx ∧ ch ≠ Ch.co) := by
    rcases ch <;> simp_all
  have hrange : (1 : Int) ≤ (m : Int) + 1 ∧ (m : Int) + 1 ≤ 9 := by
    constructor <;> omega
  have hidx : ((m : Int) + 1 - 1).toNat = m := by omega
  simp only [place_char, h1, if_neg, hrange, and_self, if_true, hidx,
    if_false, hempty, ite_not]
  constructor
  · simp
  · simp only [undo_move, List.set_set]
    rw [set_getD_self b m hempty]

/-- Witness for C8: placing X at cell 4 of the empty board then undoing
cell 4 restores the empty board's encoding. -/
theorem place_undo_roundtrip_witness :
    (place_char emptyBoard Ch.cx ((4 : Nat) + 1)).1 = none ∧
    get_numeric_board (undo_move (place_char emptyBoard Ch.cx ((4 : Nat) + 1)).2 4) =
      get_numeric_board emptyBoard :=
  place_undo_roundtrip emptyBoard Ch.cx 4 (by decide) (by decide) (by decide)

/-! ### Minimax search player (`src/tictactoe/minimax.py`) -/

/-- `-math.inf` sentinel: all board scores lie in `[-10, 10]`, so an
integer far below that range compares identically. -/
def negInf : Int := -1000000

/-- `math.inf` sentinel. -/
def posInf : Int := 1000000

/-- `DEPTH_MAP`: difficulty name to maximum search depth. -/
def DEPTH_MAP : List (String × Nat) :=
  [("random", 0), ("easy", 2), ("medium", 5), ("hard", 7), ("perfect", 9)]

/-- The state of a `MinimaxPlayer`: own mark, opponent mark, depth limit. -/
structure MMPlayer where
  player_char : Cell
  opponent_char : Cell
  max_depth : Nat

/-- `MinimaxPlayer.__init__`: opponent is `"O"` if the player is `"X"`,
else `"X"`. -/
def mkMMPlayer (c : Cell) (depth : Nat) : MMPlayer :=
  ⟨c, if c = Cell.X then Cell.O else Cell.X, depth⟩

/-- The `char` string handed to `place_char` for a given mark. -/
def chOf : Cell → Ch
  | Cell.X => Ch.cx
  | Cell.O => Ch.co
  | Cell.E => Ch.other

/-- `MinimaxPlayer._evaluate`: `+10` own win, `-10` opponent win, `0`
for a draw or a non-terminal position. -/
def evaluate (pl : MMPlayer) (b : Board) : Int :=
  match check_win b with
  | some (Res.mark c) =>
    if c = pl.player_char then 10
    else if c = pl.opponent_char then -10
    else 0
  | some Res.draw => 0
  | none => 0

/-- The maximizing loop of `_minimax`: place own mark, recurse (via `rec`,
the one-ply-deeper search), undo, keep the running maximum, raise `alpha`,
and break once `alpha >= beta`. -/
def maxLoop (pl : MMPlayer) (rec : Board → Nat → Bool → Int → Int → Int × Board)
    (depth : Nat) : Board → Int → Int → Int → List Nat → Int × Board
  | b, _, _, value, [] => (value, b)
  | b, alpha, beta, value, m :: rest =>
    let b1 := (place_char b (chOf pl.player_char) ((m : Int) + 1)).2
    let r := rec b1 (depth + 1) false alpha beta
    let value1 := max value r.1
    let b3 := undo_move r.2 m
    let alpha1 := max alpha value1
    if alpha1 ≥ beta then (value1, b3)
    else maxLoop pl rec depth b3 alpha1 beta value1 rest

/-- The minimizing loop of `_minimax`: place the opponent's mark, recurse,
undo, keep the running minimum, lower `beta`, break once `beta <= alpha`. -/
def minLoop (pl : MMPlayer) (rec : Board → Nat → Bool → Int → Int → Int × Board)
    (depth : Nat) : Board → Int → Int → Int → List Nat → Int × Board
  | b, _, _, value, [] => (value, b)
  | b, alpha, beta, value, m :: rest =>
    let b1 := (place_char b (chOf pl.opponent_char) ((m : Int) + 1)).2
    let r := rec b1 (depth + 1) true alpha beta
    let value1 := min value r.1
    let b3 := undo_move r.2 m
    let beta1 := min beta value1
    if beta1 ≤ alpha then (value1, b3)
    else minLoop pl rec depth b3 alpha beta1 value1 rest

/-- `MinimaxPlayer._minimax(board, depth, maximizing, alpha, beta)`,
threading the mutated-and-restored board explicitly.  `fuel` bounds the
recursion depth; one unit is consumed per ply, so any `fuel` larger than
the number of empty cells reproduces the Python recursion exactly. -/
def minimaxSt (pl : MMPlayer) : Nat → Board → Nat → Bool → Int → Int → Int × Board
  | 0, b, _, _, _, _ => (0, b)
  | fuel + 1, b, depth, maximizing, alpha, beta =>
    let score := evaluate pl b
    if score ≠ 0 ∨ pl.max_depth ≤ depth ∨ (check_win b).isSome then (score, b)
    else
      match available_moves b with
      | [] => (0, b)
      | m :: rest =>
        if maximizing then
          maxLoop pl (minimaxSt pl fuel) depth b alpha beta negInf (m :: rest)
        else
          minLoop pl (minimaxSt pl fuel) depth b alpha beta posInf (m :: rest)

/-- The top-level loop of `get_best_move`: apply, search one ply as the
minimizing opponent, undo; keep the first strict maximum. -/
def bestLoop (pl : MMPlayer) (fuel : Nat) :
    Board → Int → Option Nat → List Nat → Option Nat × Board
  | b, _, bm, [] => (bm, b)
  | b, bs, bm, m :: rest =>
    let b1 := (place_char b (chOf pl.player_char) ((m : Int) + 1)).2
    let r := minimaxSt pl fuel b1 0 false negInf posInf
    let b3 := undo_move r.2 m
    if r.1 > bs then bestLoop pl fuel b3 r.1 (some m) rest
    else bestLoop pl fuel b3 bs bm rest

/-- `MinimaxPlayer.get_best_move(board)`: `None` when no legal move
exists, else the first move achieving the strict maximum score. -/
def get_best_move (pl : MMPlayer) (fuel : Nat) (b : Board) : Option Nat × Board :=
  match available_moves b with
  | [] => (none, b)
  | m :: rest => bestLoop pl fuel b negInf none (m :: rest)

/-! ### Board restoration (apply-then-undo) -/

lemma mem_available_moves {b : Board} {m : Nat} (h : m ∈ available_moves b) :
    m < b.length ∧ b.getD m Cell.E = Cell.E := by
  simp only [available_moves, List.mem_map, List.mem_filter] at h
  obtain ⟨⟨i, c⟩, ⟨hmem, hc⟩, heq⟩ := h
  rw [List.mem_enum_iff_getElem?] at hmem
  simp only at heq
  subst heq
  have hlt : i < b.length := by
    by_contra hge
    rw [List.getElem?_eq_none (by omega)] at hmem
    exact Option.noConfusion hmem
  refine ⟨hlt, ?_⟩
  rw [List.getD_eq_getElem b Cell.E hlt]
  have : b[i] = c := by
    have := List.getElem?_eq_getElem hlt
    rw [this] at hmem
    exact Option.some.inj hmem
  rw [this]
  exact eq_of_beq hc

lemma place_then_undo (b : Board) (ch : Ch) (m : Nat) (hm : m < b.length)
    (hE : b.getD m Cell.E = Cell.E) :
    undo_move (place_char b ch ((m : Int) + 1)).2 m = b := by
  by_cases h1 : ch ≠ Ch.cx ∧ ch ≠ Ch.co
  · simp [place_char, h1, undo_move, set_getD_self b m hE]
  · by_cases h2 : (1 : Int) ≤ (m : Int) + 1 ∧ (m : Int) + 1 ≤ 9
    · have hidx : ((m : Int) + 1 - 1).toNat = m := by omega
      simp only [place_char, if_neg h1, h2, and_self, if_true, not_true, hidx,
        if_false, ite_not, hE]
      simp only [ne_eq, not_true_eq_false, if_false, undo_move, List.set_set]
      exact set_getD_self b m hE
    · have h9 : (9 : Int) < (m : Int) + 1 := by omega
      simp [place_char, h1, h2, h9, undo_move, set_getD_self b m hE]

lemma maxLoop_preserves (pl : MMPlayer) (rec : Board → Nat → Bool → Int → Int → Int × Board)
    (depth : Nat) (hrec : ∀ b d mx α β, (rec b d mx α β).2 = b) :
    ∀ (moves : List Nat) (b : Board) (α β v : Int),
      (∀ m ∈ moves, m < b.length ∧ b.getD m Cell.E = Cell.E) →
      (maxLoop pl rec depth b α β v moves).2 = b := by
  intro moves
  induction moves with
  | nil => intro b α β v _; rfl
  | cons m rest ih =>
    intro b α β v h
    obtain ⟨hm, hE⟩ := h m (List.mem_cons_self m rest)
    have hb3 : undo_move (rec ((place_char b (chOf pl.player_char) ((m : Int) + 1)).2)
        (depth + 1) false α β).2 m = b := by
      rw [hrec]
      exact place_then_undo b (chOf pl.player_char) m hm hE
    simp only [maxLoop, hrec, place_then_undo b (chOf pl.player_char) m hm hE]
    split
    · rfl
    · exact ih b _ _ _ (fun x hx => h x (List.mem_cons_of_mem m hx))

lemma minLoop_preserves (pl : MMPlayer) (rec : Board → Nat → Bool → Int → Int → Int × Board)
    (depth : Nat) (hrec : ∀ b d mx α β, (rec b d mx α β).2 = b) :
    ∀ (moves : List Nat) (b : Board) (α β v : Int),
      (∀ m ∈ moves, m < b.length ∧ b.getD m Cell.E = Cell.E) →
      (minLoop pl rec depth b α β v moves).2 = b := by
  intro moves
  induction moves with
  | nil => intro b α β v _; rfl
  | cons m rest ih =>
    intro b α β v h
    obtain ⟨hm, hE⟩ := h m (List.mem_cons_self m rest)
    simp only [minLoop, hrec, place_then_undo b (chOf pl.opponent_char) m hm hE]
    split
    · rfl
    · exact ih b _ _ _ (fun x hx => h x (List.mem_cons_of_mem m hx))

lemma minimaxSt_preserves (pl : MMPlayer) :
    ∀ (fuel : Nat) (b : Board) (d : Nat) (mx : Bool) (α β : Int),
      (minimaxSt pl fuel b d mx α β).2 = b := by
  intro fuel
  induction fuel with
  | zero => intro b d mx α β; rfl
  | succ n ih =>
    intro b d mx α β
    rw [minimaxSt]
    split
    · rfl
    · split
      · rfl
      · rename_i moves hmoves
        have hmem : ∀ m ∈ available_moves b, m < b.length ∧ b.getD m Cell.E = Cell.E :=
          fun m hm => mem_available_moves hm
        rw [hmoves] at hmem
        split
        · exact maxLoop_preserves pl _ _ (fun b d mx α β => ih b d mx α β) _ b α β negInf hmem
        · exact minLoop_preserves pl _ _ (fun b d mx α β => ih b d mx α β) _ b α β posInf hmem

lemma bestLoop_preserves (pl : MMPlayer) (fuel : Nat) :
    ∀ (moves : List Nat) (b : Board) (bs : Int) (bm : Option Nat),
      (∀ m ∈ moves, m < b.length ∧ b.getD m Cell.E = Cell.E) →
      (bestLoop pl fuel b bs bm moves).2 = b := by
  intro moves
  induction moves with
  | nil => intro b bs bm _; rfl
  | cons m rest ih =>
    intro b bs bm h
    obtain ⟨hm, hE⟩ := h m (List.mem_cons_self m rest)
    simp only [bestLoop, minimaxSt_preserves,
      place_then_undo b (chOf pl.player_char) m hm hE]
    split
    · exact ih b _ _ (fun x hx => h x (List.mem_cons_of_mem m hx))
    · exact ih b _ _ (fun x hx => h x (List.mem_cons_of_mem m hx))

lemma get_best_move_preserves (pl : MMPlayer) (fuel : Nat) (b : Board) :
    (get_best_move pl fuel b).2 = b := by
  rw [get_best_move]
  split
  · rfl
  · rename_i moves m rest hmoves
    have hmem : ∀ x ∈ available_moves b, x < b.length ∧ b.getD x Cell.E = Cell.E :=
      fun x hx => mem_available_moves hx
    rw [hmoves] at hmem
    exact bestLoop_preserves pl fuel _ b negInf none hmem

/-- C9: for every board and depth limit, the search restores the board:
`get_best_move` and every internal `_minimax` recursion (including
iterations cut short by alpha-beta pruning) return with the board's cell
sequence identical to its value at the time of the call. -/
theorem minimax_search_restores_board (pl : MMPlayer) (fuel : Nat) (b : Board)
    (depth : Nat) (maximizing : Bool) (alpha beta : Int) :
    (minimaxSt pl fuel b depth maximizing alpha beta).2 = b ∧
    (get_best_move pl fuel b).2 = b :=
  ⟨minimaxSt_preserves pl fuel b depth maximizing alpha beta,
   get_best_move_preserves pl fuel b⟩

/-! ### Score bounds: every minimax value lies in `[-10, 10]` -/

lemma evaluate_bounds (pl : MMPlayer) (b : Board) :
    -10 ≤ evaluate pl b ∧ evaluate pl b ≤ 10 := by
  rcases h : check_win b with _ | r
  · simp [evaluate, h]
  · rcases r with c | _
    · simp only [evaluate, h]
      split
      · omega
      · split <;> omega
    · simp [evaluate, h]

lemma maxLoop_bounds (pl : MMPlayer) (rec : Board → Nat → Bool → Int → Int → Int × Board)
    (depth : Nat) (hrec : ∀ b d mx α β, -10 ≤ (rec b d mx α β).1 ∧ (rec b d mx α β).1 ≤ 10) :
    ∀ (moves : List Nat) (b : Board) (α β v : Int), v ≤ 10 → (moves ≠ [] ∨ -10 ≤ v) →
      -10 ≤ (maxLoop pl rec depth b α β v moves).1 ∧
        (maxLoop pl rec depth b α β v moves).1 ≤ 10 := by
  intro moves
  induction moves with
  | nil =>
    intro b α β v hv h
    rcases h with h | h
    · exact absurd rfl h
    · exact ⟨h, hv⟩
  | cons m rest ih =>
    intro b α β v hv _
    have hr := hrec ((place_char b (chOf pl.player_char) ((m : Int) + 1)).2) (depth + 1)
      false α β
    simp only [maxLoop]
    split
    · exact ⟨le_trans hr.1 (le_max_right _ _), max_le hv hr.2⟩
    · exact ih _ _ _ _ (max_le hv hr.2) (Or.inr (le_trans hr.1 (le_max_right _ _)))

lemma minLoop_bounds (pl : MMPlayer) (rec : Board → Nat → Bool → Int → Int → Int × Board)
    (depth : Nat) (hrec : ∀ b d mx α β, -10 ≤ (rec b d mx α β).1 ∧ (rec b d mx α β).1 ≤ 10) :
    ∀ (moves : List Nat) (b : Board) (α β v : Int), -10 ≤ v → (moves ≠ [] ∨ v ≤ 10) →
      -10 ≤ (minLoop pl rec depth b α β v moves).1 ∧
        (minLoop pl rec depth b α β v moves).1 ≤ 10 := by
  intro moves
  induction moves with
  | nil =>
    intro b α β v hv h
    rcases h with h | h
    · exact absurd rfl h
    · exact ⟨hv, h⟩
  | cons m rest ih =>
    intro b α β v hv _
    have hr := hrec ((place_char b (chOf pl.opponent_char) ((m : Int) + 1)).2) (depth + 1)
      true α β
    simp only [minLoop]
    split
    · exact ⟨le_min hv hr.1, le_trans (min_le_right _ _) hr.2⟩
    · exact ih _ _ _ _ (le_min hv hr.1) (Or.inr (le_trans (min_le_right _ _) hr.2))

lemma minimaxSt_bounds (pl : MMPlayer) :
    ∀ (fuel : Nat) (b : Board) (d : Nat) (mx : Bool) (α β : Int),
      -10 ≤ (minimaxSt pl fuel b d mx α β).1 ∧ (minimaxSt pl fuel b d mx α β).1 ≤ 10 := by
  intro fuel
  induction fuel with
  | zero => intro b d mx α β; constructor <;> simp [minimaxSt]
  | succ n ih =>
    intro b d mx α β
    rw [minimaxSt]
    split
    · exact evaluate_bounds pl b
    · split
      · exact ⟨by norm_num, by norm_num⟩
      · split
        · exact maxLoop_bounds pl _ _ ih _ b α β negInf (by norm_num [negInf])
            (Or.inl (by simp))
        · exact minLoop_bounds pl _ _ ih _ b α β posInf (by norm_num [posInf])
            (Or.inl (by simp))

/-! ### C7: `get_best_move` returns the first strict maximum -/

/-- The pure content of the `get_best_move` loop: running best score and
best move, updated on strict improvement. -/
def pureSel (f : Nat → Int) : Int → Option Nat → List Nat → Option Nat
  | _, bm, [] => bm
  | bs, bm, m :: rest =>
    if f m > bs then pureSel f (f m) (some m) rest else pureSel f bs bm rest

/-- First component if present, else the fallback. -/
def orSel (o : Option Nat) (bm : Option Nat) : Option Nat :=
  match o with
  | some x => some x
  | none => bm

lemma find?_congr_mem {α : Type} (p q : α → Bool) (l : List α)
    (h : ∀ x ∈ l, p x = q x) : l.find? p = l.find? q := by
  induction l with
  | nil => rfl
  | cons a t ih =>
    have ha := h a (List.mem_cons_self a t)
    by_cases hq : q a = true
    · rw [List.find?_cons_of_pos _ (ha ▸ hq), List.find?_cons_of_pos _ hq]
    · rw [List.find?_cons_of_neg _ (by rw [ha]; exact hq), List.find?_cons_of_neg _ hq]
      exact ih (fun x hx => h x (List.mem_cons_of_mem a hx))

lemma exists_first_max (f : Nat → Int) :
    ∀ (l : List Nat), l ≠ [] → ∃ x ∈ l, ∀ y ∈ l, f y ≤ f x := by
  intro l
  induction l with
  | nil => intro h; exact absurd rfl h
  | cons a t ih =>
    intro _
    rcases eq_or_ne t [] with rfl | ht
    · exact ⟨a, List.mem_cons_self a [], by simp⟩
    · obtain ⟨x, hx, hmax⟩ := ih ht
      rcases le_or_lt (f x) (f a) with h | h
      · refine ⟨a, List.mem_cons_self a t, fun y hy => ?_⟩
        rcases List.mem_cons.mp hy with rfl | hy
        · exact le_refl _
        · exact (hmax y hy).trans h
      · refine ⟨x, List.mem_cons_of_mem a hx, fun y hy => ?_⟩
        rcases List.mem_cons.mp hy with rfl | hy
        · exact h.le
        · exact hmax y hy

lemma pureSel_eq_find (f : Nat → Int) :
    ∀ (l : List Nat) (bs : Int) (bm : Option Nat),
      pureSel f bs bm l =
        orSel (l.find? fun x =>
          (l.all fun y => decide (f y ≤ f x)) && decide (bs < f x)) bm := by
  intro l
  induction l with
  | nil => intro bs bm; rfl
  | cons m rest ih =>
    intro bs bm
    by_cases hm : f m > bs
    · rw [pureSel, if_pos hm, ih]
      by_cases hall : (rest.all fun y => decide (f y ≤ f m)) = true
      · have hhead : (((m :: rest).all fun y => decide (f y ≤ f m)) &&
            decide (bs < f m)) = true := by
          simp only [List.all_cons, hall, Bool.and_true, Bool.and_eq_true,
            decide_eq_true_eq]
          exact ⟨le_refl _, hm⟩
        rw [show (List.find? (fun x =>
            ((m :: rest).all fun y => decide (f y ≤ f x)) && decide (bs < f x))
            (m :: rest)) = some m from List.find?_cons_of_pos _ hhead]
        have hnone : (rest.find? fun x =>
            (rest.all fun y => decide (f y ≤ f x)) && decide (f m < f x)) = none := by
          rw [List.find?_eq_none]
          intro x hx
          simp only [Bool.and_eq_true, decide_eq_true_eq, not_and]
          intro _
          simp only [List.all_eq_true, decide_eq_true_eq] at hall
          have := hall x hx
          omega
        rw [hnone]
        rfl
      · have hy : ∃ y ∈ rest, f m < f y := by
          simp only [List.all_eq_true, decide_eq_true_eq, not_forall] at hall
          obtain ⟨y, hy, hfy⟩ := hall
          exact ⟨y, hy, by omega⟩
        obtain ⟨y, hymem, hfy⟩ := hy
        have hhead : ¬((((m :: rest).all fun z => decide (f z ≤ f m)) &&
            decide (bs < f m)) = true) := by
          simp only [List.all_cons, Bool.and_eq_true, decide_eq_true_eq, List.all_eq_true]
          rintro ⟨⟨-, hall2⟩, -⟩
          have := hall2 y hymem
          simp only [decide_eq_true_eq] at this
          omega
        rw [show (List.find? (fun x =>
            ((m :: rest).all fun y => decide (f y ≤ f x)) && decide (bs < f x))
            (m :: rest)) = (List.find? (fun x =>
            ((m :: rest).all fun y => decide (f y ≤ f x)) && decide (bs < f x))
            rest) from List.find?_cons_of_neg _ hhead]
        have hcongr : (rest.find? fun x =>
              (rest.all fun z => decide (f z ≤ f x)) && decide (f m < f x)) =
            (rest.find? fun x =>
              ((m :: rest).all fun z => decide (f z ≤ f x)) && decide (bs < f x)) := by
          apply find?_congr_mem
          intro x hx
          by_cases hax : (rest.all fun z => decide (f z ≤ f x)) = true
          · have hyx : f y ≤ f x := by
              simp only [List.all_eq_true, decide_eq_true_eq] at hax
              exact hax y hymem
            have h1 : decide (f m < f x) = true := decide_eq_true (by omega)
            have h2 : decide (f m ≤ f x) = true := decide_eq_true (by omega)
            have h3 : decide (bs < f x) = true := decide_eq_true (by omega)
            simp only [List.all_cons, hax, h1, h2, h3, Bool.and_true, Bool.true_and]
          · have hax2 : (rest.all fun z => decide (f z ≤ f x)) = false :=
              Bool.eq_false_iff.mpr hax
            simp only [List.all_cons, hax2, Bool.and_false, Bool.false_and]
        rw [hcongr]
        have hne : rest ≠ [] := List.ne_nil_of_mem hymem
        obtain ⟨x, hxmem, hxmax⟩ := exists_first_max f rest hne
        have hpred : (((m :: rest).all fun z => decide (f z ≤ f x)) &&
            decide (bs < f x)) = true := by
          have hyx : f y ≤ f x := hxmax y hymem
          simp only [List.all_cons, Bool.and_eq_true, decide_eq_true_eq,
            List.all_eq_true]
          exact ⟨⟨by omega, fun z hz => hxmax z hz⟩, by omega⟩
        rcases hfind : (rest.find? fun x =>
            ((m :: rest).all fun z => decide (f z ≤ f x)) && decide (bs < f x)) with
          _ | x2
        · rw [List.find?_eq_none] at hfind
          exact absurd hpred (hfind x hxmem)
        · rfl
    · rw [pureSel, if_neg hm, ih]
      have hhead : ¬((((m :: rest).all fun z => decide (f z ≤ f m)) &&
          decide (bs < f m)) = true) := by
        simp only [Bool.and_eq_true, decide_eq_true_eq]
        rintro ⟨-, h⟩
        omega
      rw [show (List.find? (fun x =>
          ((m :: rest).all fun y => decide (f y ≤ f x)) && decide (bs < f x))
          (m :: rest)) = (List.find? (fun x =>
          ((m :: rest).all fun y => decide (f y ≤ f x)) && decide (bs < f x))
          rest) from List.find?_cons_of_neg _ hhead]
      have hcongr : (rest.find? fun x =>
            (rest.all fun z => decide (f z ≤ f x)) && decide (bs < f x)) =
          (rest.find? fun x =>
            ((m :: rest).all fun z => decide (f z ≤ f x)) && decide (bs < f x)) := by
        apply find?_congr_mem
        intro x hx
        by_cases hbx : bs < f x
        · have h2 : decide (f m ≤ f x) = true := decide_eq_true (by omega)
          simp only [List.all_cons, h2, Bool.true_and]
        · have h3 : decide (bs < f x) = false := decide_eq_false hbx
          simp only [h3, Bool.and_false]
      rw [hcongr]

lemma bestLoop_eq_pureSel (pl : MMPlayer) (fuel : Nat) :
    ∀ (moves : List Nat) (b : Board) (bs : Int) (bm : Option Nat),
      (∀ m ∈ moves, m < b.length ∧ b.getD m Cell.E = Cell.E) →
      (bestLoop pl fuel b bs bm moves).1 =
        pureSel (fun x => (minimaxSt pl fuel
            ((place_char b (chOf pl.player_char) ((x : Int) + 1)).2)
            0 false negInf posInf).1) bs bm moves := by
  intro moves
  induction moves with
  | nil => intro b bs bm _; rfl
  | cons m rest ih =>
    intro b bs bm h
    obtain ⟨hm, hE⟩ := h m (List.mem_cons_self m rest)
    simp only [bestLoop, minimaxSt_preserves,
      place_then_undo b (chOf pl.player_char) m hm hE, pureSel]
    split_ifs with hc
    · exact ih b _ _ (fun x hx => h x (List.mem_cons_of_mem m hx))
    · exact ih b _ _ (fun x hx => h x (List.mem_cons_of_mem m hx))

/-- C7: `get_best_move` evaluates every legal top-level move (apply, one
recursive ply as the minimizing opponent, undo) scanning candidates in
ascending index order, and returns the first move achieving the strict
maximum score (ties resolve to the lowest index, as the first match of
`find?` over the ascending move list); it returns `none` exactly when the
board has no legal moves. -/
theorem get_best_move_first_argmax (pl : MMPlayer) (fuel : Nat) (b : Board) :
    ((get_best_move pl fuel b).1 = none ↔ available_moves b = []) ∧
    (get_best_move pl fuel b).1 = ((available_moves b).find? fun (x : Nat) =>
      (available_moves b).all fun (y : Nat) =>
        decide ((minimaxSt pl fuel
            ((place_char b (chOf pl.player_char) ((y : Int) + 1)).2)
            0 false negInf posInf).1 ≤
          (minimaxSt pl fuel
            ((place_char b (chOf pl.player_char) ((x : Int) + 1)).2)
            0 false negInf posInf).1)) := by
  rcases hav : available_moves b with _ | ⟨m, rest⟩
  · rw [get_best_move, hav]
    simp
  · have hmem : ∀ x ∈ available_moves b, x < b.length ∧ b.getD x Cell.E = Cell.E :=
      fun x hx => mem_available_moves hx
    rw [hav] at hmem
    have hlhs : (get_best_move pl fuel b).1 = (bestLoop pl fuel b negInf none (m :: rest)).1 := by
      rw [get_best_move, hav]
    rw [hlhs, bestLoop_eq_pureSel pl fuel (m :: rest) b negInf none hmem, pureSel_eq_find]
    set f : Nat → Int := fun x => (minimaxSt pl fuel
      ((place_char b (chOf pl.player_char) ((x : Int) + 1)).2)
      0 false negInf posInf).1 with hf
    have hstrip : ((m :: rest).find? fun x =>
          ((m :: rest).all fun y => decide (f y ≤ f x)) && decide (negInf < f x)) =
        ((m :: rest).find? fun x => (m :: rest).all fun y => decide (f y ≤ f x)) := by
      apply find?_congr_mem
      intro x _
      have hb := (minimaxSt_bounds pl fuel
        ((place_char b (chOf pl.player_char) ((x : Int) + 1)).2) 0 false negInf posInf).1
      have : decide (negInf < f x) = true := decide_eq_true (by
        simp only [hf, negInf] at *
        omega)
      rw [this, Bool.and_true]
    rw [hstrip]
    obtain ⟨x, hxmem, hxmax⟩ := exists_first_max f (m :: rest) (by simp)
    rcases hfind : ((m :: rest).find? fun x => (m :: rest).all fun y => decide (f y ≤ f x)) with
      _ | x2
    · rw [List.find?_eq_none] at hfind
      exact absurd (by
        simp only [List.all_eq_true, decide_eq_true_eq]
        exact fun y hy => hxmax y hy) (hfind x hxmem)
    · simp [orSel]

/-! ### C3: full-depth search never loses as X

The statement quantifies over every legal O strategy.  Deciding it
requires evaluating the search at every reachable position; to make that
kernel-feasible the board is mirrored into a single natural number in
base 4 (digit `i` holds cell `i`: 0 empty, 1 X, 2 O) and the search is
mirrored move for move on that packing.  Every mirror definition below is
proved equal to the faithful embedding before being used. -/

/-- Indicator bit: cell holds X. -/
def bX : Cell → Nat
  | Cell.X => 1
  | _ => 0

/-- Indicator bit: cell holds O. -/
def bO : Cell → Nat
  | Cell.O => 1
  | _ => 0

/-- Bitmask of the X cells (cell 0 = least significant bit). -/
def xmask : Board → Nat
  | [] => 0
  | c :: t => bX c + 2 * xmask t

/-- Bitmask of the O cells. -/
def omask : Board → Nat
  | [] => 0
  | c :: t => bO c + 2 * omask t

/-- Cell `i` is empty: bit `i` clear in both masks. -/
def bitE (xm om i : Nat) : Bool :=
  ((xm >>> i) &&& 1).beq 0 && ((om >>> i) &&& 1).beq 0

/-- The indices 0–8. -/
def rangeLit : List Nat := [0, 1, 2, 3, 4, 5, 6, 7, 8]

/-- Mirror of `available_moves` on masks. -/
def favail (xm om : Nat) : List Nat := rangeLit.filter (bitE xm om)

/-- A mask contains a complete line (the 8 line masks, by `Nat.land`
against the constants 7, 56, 448, 73, 146, 292, 273, 84). -/
def fwin (m : Nat) : Bool :=
  cond ((m &&& 7).beq 7) true
  (cond ((m &&& 56).beq 56) true
  (cond ((m &&& 448).beq 448) true
  (cond ((m &&& 73).beq 73) true
  (cond ((m &&& 146).beq 146) true
  (cond ((m &&& 292).beq 292) true
  (cond ((m &&& 273).beq 273) true
  ((m &&& 84).beq 84)))))))

/-- Bit-test form of `fwin`, the stepping stone between the `land`
constants and the cellwise statement. -/
def fwinBits (m : Nat) : Bool :=
  (((m >>> 0) &&& 1).beq 1 && (((m >>> 1) &&& 1).beq 1 && ((m >>> 2) &&& 1).beq 1)) ||
  ((((m >>> 3) &&& 1).beq 1 && (((m >>> 4) &&& 1).beq 1 && ((m >>> 5) &&& 1).beq 1)) ||
  ((((m >>> 6) &&& 1).beq 1 && (((m >>> 7) &&& 1).beq 1 && ((m >>> 8) &&& 1).beq 1)) ||
  ((((m >>> 0) &&& 1).beq 1 && (((m >>> 3) &&& 1).beq 1 && ((m >>> 6) &&& 1).beq 1)) ||
  ((((m >>> 1) &&& 1).beq 1 && (((m >>> 4) &&& 1).beq 1 && ((m >>> 7) &&& 1).beq 1)) ||
  ((((m >>> 2) &&& 1).beq 1 && (((m >>> 5) &&& 1).beq 1 && ((m >>> 8) &&& 1).beq 1)) ||
  ((((m >>> 0) &&& 1).beq 1 && (((m >>> 4) &&& 1).beq 1 && ((m >>> 8) &&& 1).beq 1)) ||
  (((m >>> 2) &&& 1).beq 1 && (((m >>> 4) &&& 1).beq 1 && ((m >>> 6) &&& 1).beq 1))))))))

/-- Winner code on masks: 1 when X has a line, else 2 when O has a line,
else 0.  (X priority: coincides with the faithful scan on boards where at
most one side has a complete line, which the search maintains.) -/
def fwinner (xm om : Nat) : Nat :=
  cond (fwin xm) 1 (cond (fwin om) 2 0)

/-- Mirror of `_evaluate` for the X player, from the winner code. -/
def fevalw (w : Nat) : Int := cond (w.beq 1) 10 (cond (w.beq 2) (-10) 0)

/-- `max` on scores, as a branchless conditional. -/
def imax (a b : Int) : Int := cond (decide (a ≤ b)) b a

/-- `min` on scores. -/
def imin (a b : Int) : Int := cond (decide (a ≤ b)) a b

/-- Mirror of `maxLoop` for player X on mask pairs (no threading: the
faithful loop restores its board, so the masks stay fixed). -/
def fmaxL (rec : Nat → Nat → Nat → Bool → Int → Int → Int) (xm om depth : Nat) :
    Int → Int → Int → List Nat → Int
  | _, _, value, [] => value
  | alpha, beta, value, m :: rest =>
    let v := rec (xm + 2 ^ m) om (depth + 1) false alpha beta
    let value1 := imax value v
    let alpha1 := imax alpha value1
    cond (decide (beta ≤ alpha1)) value1
      (fmaxL rec xm om depth alpha1 beta value1 rest)

/-- Mirror of `minLoop` (O places into the O mask). -/
def fminL (rec : Nat → Nat → Nat → Bool → Int → Int → Int) (xm om depth : Nat) :
    Int → Int → Int → List Nat → Int
  | _, _, value, [] => value
  | alpha, beta, value, m :: rest =>
    let v := rec xm (om + 2 ^ m) (depth + 1) true alpha beta
    let value1 := imin value v
    let beta1 := imin beta value1
    cond (decide (beta1 ≤ alpha)) value1
      (fminL rec xm om depth alpha beta1 value1 rest)

/-- Mirror of `_minimax` for the full-depth (`max_depth` 9) X player. -/
def fnode : Nat → Nat → Nat → Nat → Bool → Int → Int → Int
  | 0, _, _, _, _, _, _ => 0
  | fuel + 1, xm, om, depth, maximizing, alpha, beta =>
    let w := fwinner xm om
    let mv := favail xm om
    cond (!(w.beq 0) || ((9 : Nat).ble depth || mv.isEmpty)) (fevalw w)
      (match mv with
       | [] => 0
       | m :: rest =>
         cond maximizing (fmaxL (fnode fuel) xm om depth alpha beta negInf (m :: rest))
           (fminL (fnode fuel) xm om depth alpha beta posInf (m :: rest)))

/-- Mirror of the `get_best_move` loop. -/
def fbestL (fuel xm om : Nat) : Int → Option Nat → List Nat → Option Nat
  | _, bm, [] => bm
  | bs, bm, m :: rest =>
    let s := fnode fuel (xm + 2 ^ m) om 0 false negInf posInf
    cond (decide (bs < s)) (fbestL fuel xm om s (some m) rest)
      (fbestL fuel xm om bs bm rest)

/-- Mirror of `get_best_move`. -/
def fbest (fuel xm om : Nat) : Option Nat :=
  match favail xm om with
  | [] => none
  | m :: rest => fbestL fuel xm om negInf none (m :: rest)

/-- Packed-board check that X (moving via `fbest`, the mirror of
`get_best_move`) never reaches an O win, against every O reply. -/
def fxcheck : Nat → Nat → Nat → Bool → Bool
  | 0, _, _, _ => false
  | fuel + 1, xm, om, xTurn =>
    let w := fwinner xm om
    let mv := favail xm om
    cond (!(w.beq 0) || mv.isEmpty) (!(w.beq 2))
      (cond xTurn
        (match fbest 9 xm om with
         | none => false
         | some m => fxcheck fuel (xm + 2 ^ m) om false)
        (mv.all fun m => fxcheck fuel xm (om + 2 ^ m) true))

/-- The full-depth (`"perfect"`, depth 9) search player with mark X. -/
def perfectX : MMPlayer := mkMMPlayer Cell.X 9

/-- One game: X moves via the full-depth search player's
`get_best_move`, O moves via an arbitrary strategy `σ`. -/
def playGame (σ : Board → Nat) : Nat → Board → Bool → Board
  | 0, b, _ => b
  | fuel + 1, b, xTurn =>
    match check_win b with
    | some _ => b
    | none =>
      if xTurn then
        match (get_best_move perfectX 9 b).1 with
        | none => b
        | some m => playGame σ fuel ((place_char b Ch.cx ((m : Int) + 1)).2) false
      else
        playGame σ fuel ((place_char b Ch.co ((σ b : Int) + 1)).2) true

/-! ### Bridging the mask mirror to the faithful embedding -/

lemma bX_le_one (c : Cell) : bX c ≤ 1 := by rcases c <;> simp [bX]

lemma bO_le_one (c : Cell) : bO c ≤ 1 := by rcases c <;> simp [bO]

lemma xmask_bit (b : Board) : ∀ i, (xmask b >>> i) &&& 1 = bX (b.getD i Cell.E) := by
  induction b with
  | nil => intro i; simp [xmask, bX]
  | cons c t ih =>
    intro i
    rcases i with _ | i
    · have hc := bX_le_one c
      simp only [xmask, Nat.shiftRight_zero, Nat.and_one_is_mod, List.getD_cons_zero]
      omega
    · have hdiv : (bX c + 2 * xmask t) / 2 = xmask t := by
        have hc := bX_le_one c
        omega
      rw [List.getD_cons_succ, ← ih i, xmask, Nat.shiftRight_succ_inside, hdiv]

lemma omask_bit (b : Board) : ∀ i, (omask b >>> i) &&& 1 = bO (b.getD i Cell.E) := by
  induction b with
  | nil => intro i; simp [omask, bO]
  | cons c t ih =>
    intro i
    rcases i with _ | i
    · have hc := bO_le_one c
      simp only [omask, Nat.shiftRight_zero, Nat.and_one_is_mod, List.getD_cons_zero]
      omega
    · have hdiv : (bO c + 2 * omask t) / 2 = omask t := by
        have hc := bO_le_one c
        omega
      rw [List.getD_cons_succ, ← ih i, omask, Nat.shiftRight_succ_inside, hdiv]

lemma xmask_lt (b : Board) : xmask b < 2 ^ b.length := by
  induction b with
  | nil => simp [xmask]
  | cons c t ih =>
    have hc := bX_le_one c
    simp only [xmask, List.length_cons, pow_succ]
    omega

lemma omask_lt (b : Board) : omask b < 2 ^ b.length := by
  induction b with
  | nil => simp [omask]
  | cons c t ih =>
    have hc := bO_le_one c
    simp only [omask, List.length_cons, pow_succ]
    omega

/-- `getD` after `set`. -/
lemma getD_set (b : Board) (m : Nat) (v : Cell) :
    ∀ j, (b.set m v).getD j Cell.E =
      if m = j ∧ m < b.length then v else b.getD j Cell.E := by
  induction b generalizing m with
  | nil => intro j; simp [List.set]
  | cons c t ih =>
    intro j
    rcases m with _ | m
    · rcases j with _ | j <;> simp [List.set]
    · rcases j with _ | j
      · simp [List.set]
      · simp only [List.set, List.getD_cons_succ, ih m j, List.length_cons]
        by_cases h : m = j ∧ m < t.length
        · rw [if_pos h, if_pos (by omega)]
        · rw [if_neg h, if_neg (by omega)]

lemma xmask_set_X (b : Board) (m : Nat) (hm : m < b.length)
    (hE : b.getD m Cell.E = Cell.E) :
    xmask (b.set m Cell.X) = xmask b + 2 ^ m ∧ omask (b.set m Cell.X) = omask b := by
  induction b generalizing m with
  | nil => simp at hm
  | cons c t ih =>
    rcases m with _ | m
    · have hc : c = Cell.E := hE
      subst hc
      constructor <;> (simp [List.set, xmask, omask, bX, bO]; try omega)
    · have := ih m (by simpa using hm) (by simpa using hE)
      simp only [List.set, xmask, omask, this.1, this.2, pow_succ]
      constructor <;> ring

lemma omask_set_O (b : Board) (m : Nat) (hm : m < b.length)
    (hE : b.getD m Cell.E = Cell.E) :
    omask (b.set m Cell.O) = omask b + 2 ^ m ∧ xmask (b.set m Cell.O) = xmask b := by
  induction b generalizing m with
  | nil => simp at hm
  | cons c t ih =>
    rcases m with _ | m
    · have hc : c = Cell.E := hE
      subst hc
      constructor <;> (simp [List.set, xmask, omask, bX, bO]; try omega)
    · have := ih m (by simpa using hm) (by simpa using hE)
      simp only [List.set, xmask, omask, this.1, this.2, pow_succ]
      constructor <;> ring

/-- A successful in-range place is a `List.set`. -/
lemma place_char_set (b : Board) (ch : Ch) (m : Nat) (hch : ch ≠ Ch.other)
    (hm : m ≤ 8) (hE : b.getD m Cell.E = Cell.E) :
    (place_char b ch ((m : Int) + 1)).2 = b.set m (chToCell ch) := by
  have h1 : ¬(ch ≠ Ch.cx ∧ ch ≠ Ch.co) := by rcases ch <;> simp_all
  have hrange : (1 : Int) ≤ (m : Int) + 1 ∧ (m : Int) + 1 ≤ 9 := by omega
  have hidx : ((m : Int) + 1 - 1).toNat = m := by omega
  simp only [place_char, if_neg h1, hrange, and_self, if_true, not_true, hidx, hE,
    ite_not]
  simp

/-- `b` has a complete line filled with mark `c`, in faithful terms. -/
def hasLineFor (b : Board) (c : Cell) : Bool :=
  WIN_LINES.any fun l =>
    (b.getD l.1 Cell.E == c) && ((b.getD l.2.1 Cell.E == c) && (b.getD l.2.2 Cell.E == c))

/-- At most one side has a complete line (true of every board the search
visits: recursion stops at the first complete line). -/
def oneSided (b : Board) : Prop :=
  ¬(hasLineFor b Cell.X = true ∧ hasLineFor b Cell.O = true)

lemma bX_beq (c : Cell) : (bX c).beq 1 = (c == Cell.X) := by rcases c <;> rfl

lemma bO_beq (c : Cell) : (bO c).beq 1 = (c == Cell.O) := by rcases c <;> rfl

lemma fwinBits_xmask (b : Board) : fwinBits (xmask b) = hasLineFor b Cell.X := by
  simp only [fwinBits, xmask_bit, bX_beq, hasLineFor, WIN_LINES, List.any_cons,
    List.any_nil, Bool.or_false]

lemma fwinBits_omask (b : Board) : fwinBits (omask b) = hasLineFor b Cell.O := by
  simp only [fwinBits, omask_bit, bO_beq, hasLineFor, WIN_LINES, List.any_cons,
    List.any_nil, Bool.or_false]

set_option maxRecDepth 200000 in
lemma fwin_eq_fwinBits : ∀ m < 512, fwin m = fwinBits m := by decide

lemma fwin_xmask (b : Board) (hb : b.length = 9) : fwin (xmask b) = hasLineFor b Cell.X := by
  rw [fwin_eq_fwinBits (xmask b) (by have := xmask_lt b; rw [hb] at this; exact this),
    fwinBits_xmask]

lemma fwin_omask (b : Board) (hb : b.length = 9) : fwin (omask b) = hasLineFor b Cell.O := by
  rw [fwin_eq_fwinBits (omask b) (by have := omask_lt b; rw [hb] at this; exact this),
    fwinBits_omask]

/-- Numeric code of the faithful scan result. -/
def resCode : Option Cell → Nat
  | none => 0
  | some Cell.X => 1
  | some Cell.O => 2
  | some Cell.E => 0

lemma hasLineFor_iff (b : Board) (c : Cell) :
    hasLineFor b c = true ↔ ∃ l ∈ WIN_LINES,
      b.getD l.1 Cell.E = c ∧ b.getD l.2.1 Cell.E = c ∧ b.getD l.2.2 Cell.E = c := by
  simp [hasLineFor, List.any_eq_true, Bool.and_eq_true, beq_iff_eq, and_assoc]

lemma lineComplete_to_has (b : Board) (l : Nat × Nat × Nat) (hl : l ∈ WIN_LINES)
    (hc : lineComplete b l = true) :
    (b.getD l.1 Cell.E = Cell.X ∨ b.getD l.1 Cell.E = Cell.O) ∧
      hasLineFor b (b.getD l.1 Cell.E) = true := by
  simp only [lineComplete, decide_eq_true_eq] at hc
  obtain ⟨h12, h23, hne⟩ := hc
  constructor
  · rcases hcell : b.getD l.1 Cell.E
    · exact Or.inl rfl
    · exact Or.inr rfl
    · exact absurd (by rw [← h23, ← h12, hcell]) hne
  · rw [hasLineFor_iff]
    exact ⟨l, hl, rfl, h12.symm, by rw [← h23, ← h12]⟩

lemma has_to_lineComplete (b : Board) (c : Cell) (hc : c ≠ Cell.E)
    (h : hasLineFor b c = true) : ∃ l ∈ WIN_LINES, lineComplete b l = true := by
  rw [hasLineFor_iff] at h
  obtain ⟨l, hl, h1, h2, h3⟩ := h
  refine ⟨l, hl, ?_⟩
  simp only [lineComplete, decide_eq_true_eq]
  exact ⟨h1.trans h2.symm, h2.trans h3.symm, h3.symm ▸ hc⟩

lemma scan_oneSided (b : Board) (h : oneSided b) :
    scanLines b WIN_LINES =
      (if hasLineFor b Cell.X = true then some Cell.X
       else if hasLineFor b Cell.O = true then some Cell.O else none) := by
  rcases hs : scanLines b WIN_LINES with _ | c
  · rw [scanLines_eq_find] at hs
    have hfind : WIN_LINES.find? (lineComplete b) = none := by
      rcases hf : WIN_LINES.find? (lineComplete b) with _ | l
      · rfl
      · rw [hf] at hs; exact Option.noConfusion hs
    rw [List.find?_eq_none] at hfind
    have hx : hasLineFor b Cell.X = false := by
      by_contra hx2
      obtain ⟨l, hl, hcl⟩ := has_to_lineComplete b Cell.X (by decide)
        (Bool.eq_true_of_ne_false (by simpa using hx2))
      exact (hfind l hl) hcl
    have ho : hasLineFor b Cell.O = false := by
      by_contra ho2
      obtain ⟨l, hl, hcl⟩ := has_to_lineComplete b Cell.O (by decide)
        (Bool.eq_true_of_ne_false (by simpa using ho2))
      exact (hfind l hl) hcl
    rw [hx, ho]
    simp
  · rw [scanLines_eq_find] at hs
    rcases hf : WIN_LINES.find? (lineComplete b) with _ | l
    · rw [hf] at hs; exact Option.noConfusion hs
    · rw [hf] at hs
      have hc : b.getD l.1 Cell.E = c := by simpa using hs
      have hl : l ∈ WIN_LINES := List.mem_of_find?_eq_some hf
      have hcl : lineComplete b l = true := List.find?_some hf
      obtain ⟨hxo, hhas⟩ := lineComplete_to_has b l hl hcl
      rw [hc] at hxo hhas
      rcases hxo with rfl | rfl
      · rw [if_pos hhas]
      · have hx : hasLineFor b Cell.X = false := by
          rcases hxval : hasLineFor b Cell.X
          · rfl
          · exact absurd ⟨hxval, hhas⟩ h
        rw [hx]
        simp [hhas]

lemma fwinner_bridge (b : Board) (hb : b.length = 9) (hos : oneSided b) :
    fwinner (xmask b) (omask b) = resCode (scanLines b WIN_LINES) := by
  rw [fwinner, fwin_xmask b hb, fwin_omask b hb, scan_oneSided b hos]
  rcases hx : hasLineFor b Cell.X <;> rcases ho : hasLineFor b Cell.O <;>
    simp [resCode]

lemma bitE_bridge (b : Board) (i : Nat) :
    bitE (xmask b) (omask b) i = (b.getD i Cell.E == Cell.E) := by
  rw [bitE, xmask_bit, omask_bit]
  rcases b.getD i Cell.E <;> rfl

lemma enumFrom_avail (t : Board) :
    ∀ i, ((List.enumFrom i t).filter fun p => p.2 == Cell.E).map Prod.fst =
      (List.range' i t.length).filter fun j => t.getD (j - i) Cell.E == Cell.E := by
  induction t with
  | nil => intro i; rfl
  | cons c t ih =>
    intro i
    rw [List.enumFrom_cons, List.length_cons, List.range'_succ]
    by_cases hc : (c == Cell.E) = true
    · rw [List.filter_cons_of_pos (by simpa using hc),
        List.filter_cons_of_pos (by simpa using hc), List.map_cons]
      simp only
      rw [ih (i + 1)]
      congr 1
      apply List.filter_congr
      intro j hj
      rw [List.mem_range'] at hj
      obtain ⟨k, hk, rfl⟩ := hj
      have : i + 1 + 1 * k - i = (i + 1 + 1 * k - (i + 1)) + 1 := by omega
      rw [this, List.getD_cons_succ]
    · rw [List.filter_cons_of_neg (by simpa using hc),
        List.filter_cons_of_neg (by simpa using hc)]
      rw [ih (i + 1)]
      apply List.filter_congr
      intro j hj
      rw [List.mem_range'] at hj
      obtain ⟨k, hk, rfl⟩ := hj
      have : i + 1 + 1 * k - i = (i + 1 + 1 * k - (i + 1)) + 1 := by omega
      rw [this, List.getD_cons_succ]

lemma avail_eq_range (b : Board) :
    available_moves b = (List.range' 0 b.length).filter fun j => b.getD j Cell.E == Cell.E := by
  rw [available_moves, show b.enum = List.enumFrom 0 b from rfl, enumFrom_avail b 0]
  apply List.filter_congr
  intro j _
  rw [Nat.sub_zero]

lemma favail_bridge (b : Board) (hb : b.length = 9) :
    favail (xmask b) (omask b) = available_moves b := by
  rw [favail, avail_eq_range, hb,
    show rangeLit = List.range' 0 9 from rfl]
  exact List.filter_congr fun j _ => bitE_bridge b j

lemma avail_nil_iff (b : Board) : available_moves b = [] ↔ is_full b = true := by
  rw [avail_eq_range, List.filter_eq_nil_iff, is_full, decide_eq_true_eq]
  constructor
  · intro h hmem
    obtain ⟨i, hi, hbi⟩ := List.getElem_of_mem hmem
    refine h i ?_ ?_
    · rw [List.mem_range']
      exact ⟨i, hi, by omega⟩
    · rw [List.getD_eq_getElem b Cell.E hi, hbi]
      simp
  · intro h j hj
    rw [List.mem_range'] at hj
    obtain ⟨k, hk, rfl⟩ := hj
    simp only [Nat.zero_add, Nat.one_mul, beq_iff_eq]
    intro hE
    apply h
    rw [← hE]
    have hlt : 1 * k < b.length := by omega
    rw [List.getD_eq_getElem b Cell.E (by omega)]
    exact List.getElem_mem (by omega)

lemma perfectX_player : perfectX.player_char = Cell.X := rfl

lemma perfectX_opp : perfectX.opponent_char = Cell.O := rfl

lemma perfectX_depth : perfectX.max_depth = 9 := rfl

lemma imax_eq (a b : Int) : imax a b = max a b := by
  rw [imax, Bool.cond_decide, max_def]

lemma imin_eq (a b : Int) : imin a b = min a b := by
  rw [imin, Bool.cond_decide, min_def]

lemma scanLines_ne_E {b : Board} {ls : List (Nat × Nat × Nat)} {c : Cell}
    (h : scanLines b ls = some c) : c ≠ Cell.E := by
  rw [scanLines_eq_find] at h
  rcases hf : ls.find? (lineComplete b) with _ | l
  · rw [hf] at h; exact Option.noConfusion h
  · rw [hf] at h
    have hc : b.getD l.1 Cell.E = c := by simpa using h
    have hcl := List.find?_some hf
    simp only [lineComplete, decide_eq_true_eq] at hcl
    obtain ⟨h12, h23, hne⟩ := hcl
    rw [← hc, h12, h23]
    exact hne

lemma scan_none_no_complete {b : Board} (h : scanLines b WIN_LINES = none) :
    ∀ l ∈ WIN_LINES, ¬(lineComplete b l = true) := by
  rw [scanLines_eq_find] at h
  rcases hf : WIN_LINES.find? (lineComplete b) with _ | l
  · rw [List.find?_eq_none] at hf
    exact hf
  · rw [hf] at h; exact Option.noConfusion h

lemma oneSided_place_X (b : Board) (m : Nat)
    (hnone : scanLines b WIN_LINES = none) : oneSided (b.set m Cell.X) := by
  rintro ⟨-, ho⟩
  rw [hasLineFor_iff] at ho
  obtain ⟨l, hl, h1, h2, h3⟩ := ho
  have conv : ∀ j, (b.set m Cell.X).getD j Cell.E = Cell.O → b.getD j Cell.E = Cell.O := by
    intro j hj
    rw [getD_set] at hj
    split at hj
    · exact absurd hj (by decide)
    · exact hj
  have hbo : hasLineFor b Cell.O = true :=
    (hasLineFor_iff b Cell.O).mpr ⟨l, hl, conv _ h1, conv _ h2, conv _ h3⟩
  obtain ⟨l2, hl2, hcl⟩ := has_to_lineComplete b Cell.O (by decide) hbo
  exact scan_none_no_complete hnone l2 hl2 hcl

lemma oneSided_place_O (b : Board) (m : Nat)
    (hnone : scanLines b WIN_LINES = none) : oneSided (b.set m Cell.O) := by
  rintro ⟨hx, -⟩
  rw [hasLineFor_iff] at hx
  obtain ⟨l, hl, h1, h2, h3⟩ := hx
  have conv : ∀ j, (b.set m Cell.O).getD j Cell.E = Cell.X → b.getD j Cell.E = Cell.X := by
    intro j hj
    rw [getD_set] at hj
    split at hj
    · exact absurd hj (by decide)
    · exact hj
  have hbx : hasLineFor b Cell.X = true :=
    (hasLineFor_iff b Cell.X).mpr ⟨l, hl, conv _ h1, conv _ h2, conv _ h3⟩
  obtain ⟨l2, hl2, hcl⟩ := has_to_lineComplete b Cell.X (by decide) hbx
  exact scan_none_no_complete hnone l2 hl2 hcl

lemma undo_place_set (b : Board) (m : Nat) (v : Cell) (hE : b.getD m Cell.E = Cell.E)
    (hm : m < b.length) : undo_move (b.set m v) m = b := by
  rw [undo_move, List.set_set]
  exact set_getD_self b m hE

lemma fmaxL_bridge (rec : Board → Nat → Bool → Int → Int → Int × Board)
    (frec : Nat → Nat → Nat → Bool → Int → Int → Int) (depth : Nat)
    (hpres : ∀ b2 d mx α β, (rec b2 d mx α β).2 = b2)
    (hval : ∀ b2 d mx α β, b2.length = 9 → oneSided b2 →
      frec (xmask b2) (omask b2) d mx α β = (rec b2 d mx α β).1) :
    ∀ (moves : List Nat) (b : Board) (α β v : Int), b.length = 9 →
      scanLines b WIN_LINES = none →
      (∀ m ∈ moves, m < b.length ∧ b.getD m Cell.E = Cell.E) →
      fmaxL frec (xmask b) (omask b) depth α β v moves =
        (maxLoop perfectX rec depth b α β v moves).1 := by
  intro moves
  induction moves with
  | nil => intros; rfl
  | cons m rest ih =>
    intro b α β v hb hnone h
    obtain ⟨hm, hE⟩ := h m (List.mem_cons_self m rest)
    have hch : chOf perfectX.player_char = Ch.cx := rfl
    have hb1 : (place_char b (chOf perfectX.player_char) ((m : Int) + 1)).2 =
        b.set m Cell.X := by
      rw [hch]
      exact place_char_set b Ch.cx m (by decide) (by omega) hE
    have hset := xmask_set_X b m hm hE
    have hlen : (b.set m Cell.X).length = 9 := by rw [List.length_set, hb]
    have hos1 : oneSided (b.set m Cell.X) := oneSided_place_X b m hnone
    simp only [fmaxL, maxLoop, hb1, hpres, undo_place_set b m Cell.X hE hm]
    have hv := hval (b.set m Cell.X) (depth + 1) false α β hlen hos1
    rw [hset.1, hset.2] at hv
    rw [hv, imax_eq, imax_eq]
    by_cases hc : β ≤ max α (max v (rec (b.set m Cell.X) (depth + 1) false α β).1)
    · rw [Bool.cond_decide, if_pos hc, if_pos hc]
    · rw [Bool.cond_decide, if_neg hc, if_neg hc]
      exact ih b _ _ _ hb hnone (fun x hx => h x (List.mem_cons_of_mem m hx))

lemma fminL_bridge (rec : Board → Nat → Bool → Int → Int → Int × Board)
    (frec : Nat → Nat → Nat → Bool → Int → Int → Int) (depth : Nat)
    (hpres : ∀ b2 d mx α β, (rec b2 d mx α β).2 = b2)
    (hval : ∀ b2 d mx α β, b2.length = 9 → oneSided b2 →
      frec (xmask b2) (omask b2) d mx α β = (rec b2 d mx α β).1) :
    ∀ (moves : List Nat) (b : Board) (α β v : Int), b.length = 9 →
      scanLines b WIN_LINES = none →
      (∀ m ∈ moves, m < b.length ∧ b.getD m Cell.E = Cell.E) →
      fminL frec (xmask b) (omask b) depth α β v moves =
        (minLoop perfectX rec depth b α β v moves).1 := by
  intro moves
  induction moves with
  | nil => intros; rfl
  | cons m rest ih =>
    intro b α β v hb hnone h
    obtain ⟨hm, hE⟩ := h m (List.mem_cons_self m rest)
    have hch : chOf perfectX.opponent_char = Ch.co := rfl
    have hb1 : (place_char b (chOf perfectX.opponent_char) ((m : Int) + 1)).2 =
        b.set m Cell.O := by
      rw [hch]
      exact place_char_set b Ch.co m (by decide) (by omega) hE
    have hset := omask_set_O b m hm hE
    have hlen : (b.set m Cell.O).length = 9 := by rw [List.length_set, hb]
    have hos1 : oneSided (b.set m Cell.O) := oneSided_place_O b m hnone
    simp only [fminL, minLoop, hb1, hpres, undo_place_set b m Cell.O hE hm]
    have hv := hval (b.set m Cell.O) (depth + 1) true α β hlen hos1
    rw [hset.1, hset.2] at hv
    rw [hv, imin_eq, imin_eq]
    by_cases hc : min β (min v (rec (b.set m Cell.O) (depth + 1) true α β).1) ≤ α
    · rw [Bool.cond_decide, if_pos hc, if_pos hc]
    · rw [Bool.cond_decide, if_neg hc, if_neg hc]
      exact ih b _ _ _ hb hnone (fun x hx => h x (List.mem_cons_of_mem m hx))

lemma fnode_bridge : ∀ (fuel : Nat) (b : Board) (d : Nat) (mx : Bool) (α β : Int),
    b.length = 9 → oneSided b →
    fnode fuel (xmask b) (omask b) d mx α β =
      (minimaxSt perfectX fuel b d mx α β).1 := by
  intro fuel
  induction fuel with
  | zero => intros; rfl
  | succ n ih =>
    intro b d mx α β hb hos
    rw [fnode, minimaxSt, fwinner_bridge b hb hos, favail_bridge b hb]
    rcases hs : scanLines b WIN_LINES with _ | c
    · rcases hful : is_full b
      · have hcw : check_win b = none := by rw [check_win, hs, hful]; rfl
        have hmvne : available_moves b ≠ [] := by
          rw [ne_eq, avail_nil_iff, hful]; simp
        have hev : evaluate perfectX b = 0 := by rw [evaluate, hcw]
        have hemp : (available_moves b).isEmpty = false := by
          rcases havl : available_moves b with _ | ⟨x, xs⟩
          · exact absurd havl hmvne
          · rfl
        rcases hd : Nat.ble 9 d
        · have hdlt : ¬(9 ≤ d) := by
            intro hle
            rw [Nat.ble_eq_true_of_le hle] at hd
            exact Bool.noConfusion hd
          have hcond : ¬(evaluate perfectX b ≠ 0 ∨ perfectX.max_depth ≤ d ∨
              (check_win b).isSome) := by
            rw [hev, hcw, perfectX_depth]
            simp [hdlt]
          rw [if_neg hcond]
          have hcondb : (!Nat.beq (resCode none) 0 ||
              (false || (available_moves b).isEmpty)) = false := by
            rw [hemp]; rfl
          rw [hcondb, Bool.cond_false]
          rcases havl : available_moves b with _ | ⟨m, rest⟩
          · exact absurd havl hmvne
          · have hmem : ∀ x ∈ available_moves b,
                x < b.length ∧ b.getD x Cell.E = Cell.E :=
              fun x hx => mem_available_moves hx
            rw [havl] at hmem
            rcases mx
            · simp only [Bool.cond_false, if_neg (Bool.false_ne_true)]
              exact fminL_bridge (minimaxSt perfectX n) (fnode n) d
                (fun b2 d2 mx2 α2 β2 => minimaxSt_preserves perfectX n b2 d2 mx2 α2 β2)
                (fun b2 d2 mx2 α2 β2 hb2 hos2 => ih b2 d2 mx2 α2 β2 hb2 hos2)
                (m :: rest) b α β posInf hb hs hmem
            · simp only [Bool.cond_true, if_pos rfl]
              exact fmaxL_bridge (minimaxSt perfectX n) (fnode n) d
                (fun b2 d2 mx2 α2 β2 => minimaxSt_preserves perfectX n b2 d2 mx2 α2 β2)
                (fun b2 d2 mx2 α2 β2 hb2 hos2 => ih b2 d2 mx2 α2 β2 hb2 hos2)
                (m :: rest) b α β negInf hb hs hmem
        · have hdle : 9 ≤ d := Nat.le_of_ble_eq_true hd
          have hcond : evaluate perfectX b ≠ 0 ∨ perfectX.max_depth ≤ d ∨
              (check_win b).isSome := Or.inr (Or.inl (perfectX_depth ▸ hdle))
          rw [if_pos hcond, hev]
          have hcondb : (!Nat.beq (resCode none) 0 ||
              (true || (available_moves b).isEmpty)) = true := rfl
          rw [hcondb, Bool.cond_true]
          rfl
      · have hcw : check_win b = some Res.draw := by
          rw [check_win, hs, hful]; rfl
        have hmv0 : available_moves b = [] := (avail_nil_iff b).mpr hful
        have hev : evaluate perfectX b = 0 := by rw [evaluate, hcw]
        have hcond : evaluate perfectX b ≠ 0 ∨ perfectX.max_depth ≤ d ∨
            (check_win b).isSome := Or.inr (Or.inr (by rw [hcw]; rfl))
        rw [if_pos hcond, hev, hmv0]
        have hcondb : (!Nat.beq (resCode none) 0 ||
            (Nat.ble 9 d || List.isEmpty ([] : List Nat))) = true := by
          rw [show List.isEmpty ([] : List Nat) = true from rfl, Bool.or_true]
          rfl
        rw [hcondb, Bool.cond_true]
        rfl
    · have hcw : check_win b = some (Res.mark c) := by rw [check_win, hs]
      have hcne : c ≠ Cell.E := scanLines_ne_E hs
      rcases c
      · have hev : evaluate perfectX b = 10 := by
          rw [evaluate, hcw]; rfl
        have hcond : evaluate perfectX b ≠ 0 ∨ perfectX.max_depth ≤ d ∨
            (check_win b).isSome := Or.inl (by rw [hev]; decide)
        rw [if_pos hcond, hev]
        rfl
      · have hev : evaluate perfectX b = -10 := by
          rw [evaluate, hcw]; rfl
        have hcond : evaluate perfectX b ≠ 0 ∨ perfectX.max_depth ≤ d ∨
            (check_win b).isSome := Or.inl (by rw [hev]; decide)
        rw [if_pos hcond, hev]
        rfl
      · exact absurd rfl hcne

lemma fbestL_bridge (fuel : Nat) :
    ∀ (moves : List Nat) (b : Board) (bs : Int) (bm : Option Nat), b.length = 9 →
      scanLines b WIN_LINES = none →
      (∀ m ∈ moves, m < b.length ∧ b.getD m Cell.E = Cell.E) →
      fbestL fuel (xmask b) (omask b) bs bm moves =
        (bestLoop perfectX fuel b bs bm moves).1 := by
  intro moves
  induction moves with
  | nil => intros; rfl
  | cons m rest ih =>
    intro b bs bm hb hnone h
    obtain ⟨hm, hE⟩ := h m (List.mem_cons_self m rest)
    have hb1 : (place_char b (chOf perfectX.player_char) ((m : Int) + 1)).2 =
        b.set m Cell.X := by
      rw [show chOf perfectX.player_char = Ch.cx from rfl]
      exact place_char_set b Ch.cx m (by decide) (by omega) hE
    have hset := xmask_set_X b m hm hE
    have hlen : (b.set m Cell.X).length = 9 := by rw [List.length_set, hb]
    have hos1 : oneSided (b.set m Cell.X) := oneSided_place_X b m hnone
    simp only [fbestL, bestLoop, hb1, minimaxSt_preserves,
      undo_place_set b m Cell.X hE hm]
    have hv := fnode_bridge fuel (b.set m Cell.X) 0 false negInf posInf hlen hos1
    rw [hset.1, hset.2] at hv
    rw [hv]
    by_cases hc : bs < (minimaxSt perfectX fuel (b.set m Cell.X) 0 false negInf posInf).1
    · rw [Bool.cond_decide, if_pos hc, if_pos hc]
      exact ih b _ _ hb hnone (fun x hx => h x (List.mem_cons_of_mem m hx))
    · rw [Bool.cond_decide, if_neg hc, if_neg hc]
      exact ih b _ _ hb hnone (fun x hx => h x (List.mem_cons_of_mem m hx))

lemma fbest_bridge (b : Board) (hb : b.length = 9)
    (hnone : scanLines b WIN_LINES = none) :
    fbest 9 (xmask b) (omask b) = (get_best_move perfectX 9 b).1 := by
  rw [fbest, get_best_move, favail_bridge b hb]
  rcases havl : available_moves b with _ | ⟨m, rest⟩
  · rfl
  · have hmem : ∀ x ∈ available_moves b, x < b.length ∧ b.getD x Cell.E = Cell.E :=
      fun x hx => mem_available_moves hx
    rw [havl] at hmem
    exact fbestL_bridge 9 (m :: rest) b negInf none hb hnone hmem

lemma bestLoop_mem (pl : MMPlayer) (fuel : Nat) :
    ∀ (moves : List Nat) (b : Board) (bs : Int) (bm : Option Nat) (x : Nat),
      (bestLoop pl fuel b bs bm moves).1 = some x → bm = some x ∨ x ∈ moves := by
  intro moves
  induction moves with
  | nil => intro b bs bm x h; exact Or.inl h
  | cons m rest ih =>
    intro b bs bm x h
    rw [bestLoop] at h
    split at h
    · rcases ih _ _ _ _ h with h2 | h2
      · rw [← Option.some.inj h2]
        exact Or.inr (List.mem_cons_self m rest)
      · exact Or.inr (List.mem_cons_of_mem m h2)
    · rcases ih _ _ _ _ h with h2 | h2
      · exact Or.inl h2
      · exact Or.inr (List.mem_cons_of_mem m h2)

lemma get_best_move_mem (pl : MMPlayer) (fuel : Nat) (b : Board) (m : Nat)
    (h : (get_best_move pl fuel b).1 = some m) : m ∈ available_moves b := by
  rw [get_best_move] at h
  rcases havl : available_moves b with _ | ⟨x, rest⟩
  · rw [havl] at h
    exact Option.noConfusion h
  · rw [havl] at h
    rcases bestLoop_mem pl fuel (x :: rest) b negInf none m h with h2 | h2
    · exact Option.noConfusion h2
    · exact h2

lemma fxcheck_playGame (σ : Board → Nat)
    (hσ : ∀ b2, check_win b2 = none → σ b2 ∈ available_moves b2) :
    ∀ (fuel : Nat) (b : Board) (xTurn : Bool), b.length = 9 → oneSided b →
      fxcheck fuel (xmask b) (omask b) xTurn = true →
      ∃ r, check_win (playGame σ fuel b xTurn) = some r ∧ r ≠ Res.mark Cell.O := by
  intro fuel
  induction fuel with
  | zero =>
    intro b xTurn _ _ hfx
    rw [fxcheck] at hfx
    exact Bool.noConfusion hfx
  | succ n ih =>
    intro b xTurn hb hos hfx
    rw [fxcheck, fwinner_bridge b hb hos, favail_bridge b hb] at hfx
    rw [playGame]
    rcases hs : scanLines b WIN_LINES with _ | c
    · rw [hs] at hfx
      rcases hful : is_full b
      · have hcw : check_win b = none := by rw [check_win, hs, hful]; rfl
        rw [hcw]
        have hemp : (available_moves b).isEmpty = false := by
          have hne : available_moves b ≠ [] := by
            rw [ne_eq, avail_nil_iff, hful]; simp
          rcases havl : available_moves b with _ | ⟨y, ys⟩
          · exact absurd havl hne
          · rfl
        rw [show (!Nat.beq (resCode none) 0 || (available_moves b).isEmpty) =
            (available_moves b).isEmpty from rfl, hemp, Bool.cond_false] at hfx
        rcases hxt : xTurn
        · rw [hxt, Bool.cond_false] at hfx
          have hσb := hσ b hcw
          obtain ⟨hm, hE⟩ := mem_available_moves hσb
          rw [List.all_eq_true] at hfx
          have hfx2 := hfx (σ b) hσb
          have hset := omask_set_O b (σ b) hm hE
          rw [← hset.1] at hfx2
          rw [show xmask b = xmask (b.set (σ b) Cell.O) from hset.2.symm] at hfx2
          have hb1 : (place_char b Ch.co ((σ b : Int) + 1)).2 = b.set (σ b) Cell.O :=
            place_char_set b Ch.co (σ b) (by decide) (by omega) hE
          show ∃ r, check_win (playGame σ n (place_char b Ch.co ((σ b : Int) + 1)).2 true) =
            some r ∧ r ≠ Res.mark Cell.O
          rw [hb1]
          exact ih (b.set (σ b) Cell.O) true (by rw [List.length_set, hb])
            (oneSided_place_O b (σ b) hs) hfx2
        · rw [hxt, Bool.cond_true, fbest_bridge b hb hs] at hfx
          rcases hbm : (get_best_move perfectX 9 b).1 with _ | m
          · rw [hbm] at hfx
            exact Bool.noConfusion hfx
          · rw [hbm] at hfx
            have hmem := get_best_move_mem perfectX 9 b m hbm
            obtain ⟨hm, hE⟩ := mem_available_moves hmem
            have hset := xmask_set_X b m hm hE
            have hfx2 : fxcheck n (xmask b + 2 ^ m) (omask b) false = true := hfx
            rw [← hset.1] at hfx2
            rw [show omask b = omask (b.set m Cell.X) from hset.2.symm] at hfx2
            have hb1 : (place_char b Ch.cx ((m : Int) + 1)).2 = b.set m Cell.X :=
              place_char_set b Ch.cx m (by decide) (by omega) hE
            show ∃ r, check_win (playGame σ n (place_char b Ch.cx ((m : Int) + 1)).2 false) =
              some r ∧ r ≠ Res.mark Cell.O
            rw [hb1]
            exact ih (b.set m Cell.X) false (by rw [List.length_set, hb])
              (oneSided_place_X b m hs) hfx2
      · have hcw : check_win b = some Res.draw := by rw [check_win, hs, hful]; rfl
        rw [hcw]
        exact ⟨Res.draw, hcw, by decide⟩
    · rw [hs] at hfx
      have hcw : check_win b = some (Res.mark c) := by rw [check_win, hs]
      rw [hcw]
      refine ⟨Res.mark c, hcw, ?_⟩
      rcases c
      · decide
      · rw [show (!Nat.beq (resCode (some Cell.O)) 0 ||
            (available_moves b).isEmpty) = true from rfl, Bool.cond_true] at hfx
        exact Bool.noConfusion hfx
      · exact absurd rfl (scanLines_ne_E hs)

/-! The empty-board check, split into per-branch kernel computations:
first the root search value of each of the nine first moves (they all
score 0, so `fbest` keeps the first candidate, cell 0), then the eight
subtrees after each O reply to X's chosen first move. -/

set_option maxRecDepth 1000000 in
set_option maxHeartbeats 400000000 in
lemma fnodeC0 : fnode 9 (0 + 2 ^ 0) 0 0 false negInf posInf = 0 := by decide

set_option maxRecDepth 1000000 in
set_option maxHeartbeats 400000000 in
lemma fnodeC1 : fnode 9 (0 + 2 ^ 1) 0 0 false negInf posInf = 0 := by decide

set_option maxRecDepth 1000000 in
set_option maxHeartbeats 400000000 in
lemma fnodeC2 : fnode 9 (0 + 2 ^ 2) 0 0 false negInf posInf = 0 := by decide

set_option maxRecDepth 1000000 in
set_option maxHeartbeats 400000000 in
lemma fnodeC3 : fnode 9 (0 + 2 ^ 3) 0 0 false negInf posInf = 0 := by decide

set_option maxRecDepth 1000000 in
set_option maxHeartbeats 400000000 in
lemma fnodeC4 : fnode 9 (0 + 2 ^ 4) 0 0 false negInf posInf = 0 := by decide

set_option maxRecDepth 1000000 in
set_option maxHeartbeats 400000000 in
lemma fnodeC5 : fnode 9 (0 + 2 ^ 5) 0 0 false negInf posInf = 0 := by decide

set_option maxRecDepth 1000000 in
set_option maxHeartbeats 400000000 in
lemma fnodeC6 : fnode 9 (0 + 2 ^ 6) 0 0 false negInf posInf = 0 := by decide

set_option maxRecDepth 1000000 in
set_option maxHeartbeats 400000000 in
lemma fnodeC7 : fnode 9 (0 + 2 ^ 7) 0 0 false negInf posInf = 0 := by decide

set_option maxRecDepth 1000000 in
set_option maxHeartbeats 400000000 in
lemma fnodeC8 : fnode 9 (0 + 2 ^ 8) 0 0 false negInf posInf = 0 := by decide

/-- When every candidate scores the same value `s`, the best-move loop
returns the first candidate when it improves on the running best, and
the incoming best move otherwise. -/
lemma fbestL_all_eq (fuel xm om : Nat) (s : Int) :
    ∀ (l : List Nat),
      (∀ m ∈ l, fnode fuel (xm + 2 ^ m) om 0 false negInf posInf = s) →
      ∀ (bs : Int) (bm : Option Nat),
        fbestL fuel xm om bs bm l =
          cond (decide (bs < s)) (match l with | [] => bm | x :: _ => some x) bm := by
  intro l
  induction l with
  | nil =>
    intro _ bs bm
    rw [fbestL]
    cases decide (bs < s) <;> rfl
  | cons m rest ih =>
    intro h bs bm
    have hm : fnode fuel (xm + 2 ^ m) om 0 false negInf posInf = s :=
      h m (List.mem_cons_self m rest)
    have hrest : ∀ x ∈ rest, fnode fuel (xm + 2 ^ x) om 0 false negInf posInf = s :=
      fun x hx => h x (List.mem_cons_of_mem m hx)
    simp only [fbestL, hm]
    by_cases hc : bs < s
    · rw [show decide (bs < s) = true from decide_eq_true hc, Bool.cond_true,
        Bool.cond_true, ih hrest s (some m),
        show decide (s < s) = false from decide_eq_false (lt_irrefl s), Bool.cond_false]
    · rw [show decide (bs < s) = false from decide_eq_false hc, Bool.cond_false,
        Bool.cond_false, ih hrest bs bm,
        show decide (bs < s) = false from decide_eq_false hc, Bool.cond_false]

/-- The root search from the empty board: all nine first moves score 0,
so the strict-improvement loop keeps the first candidate, cell 0. -/
lemma fbest_empty : fbest 9 0 0 = some 0 := by
  have hall : ∀ m ∈ ([0, 1, 2, 3, 4, 5, 6, 7, 8] : List Nat),
      fnode 9 (0 + 2 ^ m) 0 0 false negInf posInf = 0 := by
    intro m hm
    fin_cases hm
    · exact fnodeC0
    · exact fnodeC1
    · exact fnodeC2
    · exact fnodeC3
    · exact fnodeC4
    · exact fnodeC5
    · exact fnodeC6
    · exact fnodeC7
    · exact fnodeC8
  have h := fbestL_all_eq 9 0 0 0 [0, 1, 2, 3, 4, 5, 6, 7, 8] hall negInf none
  rw [show fbest 9 0 0 = fbestL 9 0 0 negInf none [0, 1, 2, 3, 4, 5, 6, 7, 8] from rfl,
    h]
  rfl

/-- One X step of `fxcheck` on a live position, given the search's move. -/
lemma fxcheck_step_x (fuel xm om m : Nat) (hw : fwinner xm om = 0)
    (hne : (favail xm om).isEmpty = false) (hb : fbest 9 xm om = some m) :
    fxcheck (fuel + 1) xm om true = fxcheck fuel (xm + 2 ^ m) om false := by
  rw [fxcheck, hw, hne, hb]
  rfl

/-- One O step of `fxcheck` on a live position: every reply must pass. -/
lemma fxcheck_step_o (fuel xm om : Nat) (l : List Nat) (hw : fwinner xm om = 0)
    (hav : favail xm om = l) (hne : l.isEmpty = false) :
    fxcheck (fuel + 1) xm om false =
      l.all fun m => fxcheck fuel xm (om + 2 ^ m) true := by
  rw [fxcheck, hw, hav, hne]
  rfl

set_option maxRecDepth 1000000 in
set_option maxHeartbeats 400000000 in
lemma fxO1 : fxcheck 8 (0 + 2 ^ 0) (0 + 2 ^ 1) true = true := by decide

set_option maxRecDepth 1000000 in
set_option maxHeartbeats 400000000 in
lemma fxO2 : fxcheck 8 (0 + 2 ^ 0) (0 + 2 ^ 2) true = true := by decide

set_option maxRecDepth 1000000 in
set_option maxHeartbeats 400000000 in
lemma fxO3 : fxcheck 8 (0 + 2 ^ 0) (0 + 2 ^ 3) true = true := by decide

set_option maxRecDepth 1000000 in
set_option maxHeartbeats 400000000 in
lemma fxO4 : fxcheck 8 (0 + 2 ^ 0) (0 + 2 ^ 4) true = true := by decide

set_option maxRecDepth 1000000 in
set_option maxHeartbeats 400000000 in
lemma fxO5 : fxcheck 8 (0 + 2 ^ 0) (0 + 2 ^ 5) true = true := by decide

set_option maxRecDepth 1000000 in
set_option maxHeartbeats 400000000 in
lemma fxO6 : fxcheck 8 (0 + 2 ^ 0) (0 + 2 ^ 6) true = true := by decide

set_option maxRecDepth 1000000 in
set_option maxHeartbeats 400000000 in
lemma fxO7 : fxcheck 8 (0 + 2 ^ 0) (0 + 2 ^ 7) true = true := by decide

set_option maxRecDepth 1000000 in
set_option maxHeartbeats 400000000 in
lemma fxO8 : fxcheck 8 (0 + 2 ^ 0) (0 + 2 ^ 8) true = true := by decide

lemma fxcheck_empty : fxcheck 10 0 0 true = true := by
  have h1 : fxcheck 10 0 0 true = fxcheck 9 (0 + 2 ^ 0) 0 false :=
    fxcheck_step_x 9 0 0 0 rfl rfl fbest_empty
  have h2 : fxcheck 9 (0 + 2 ^ 0) 0 false =
      ([1, 2, 3, 4, 5, 6, 7, 8] : List Nat).all
        (fun m => fxcheck 8 (0 + 2 ^ 0) (0 + 2 ^ m) true) :=
    fxcheck_step_o 8 (0 + 2 ^ 0) 0 [1, 2, 3, 4, 5, 6, 7, 8] rfl rfl rfl
  rw [h1, h2]
  simp only [List.all_cons, List.all_nil, fxO1, fxO2, fxO3, fxO4, fxO5, fxO6, fxO7,
    fxO8, Bool.and_self, Bool.and_true]

lemma headD_legal (b : Board) (hcw : check_win b = none) :
    (available_moves b).headD 0 ∈ available_moves b := by
  have hne : available_moves b ≠ [] := by
    intro hnil
    rw [avail_nil_iff] at hnil
    rw [check_win] at hcw
    rcases hs : scanLines b WIN_LINES with _ | c
    · rw [hs, hnil] at hcw
      simp at hcw
    · rw [hs] at hcw
      exact Option.noConfusion hcw
  rcases havl : available_moves b with _ | ⟨m, rest⟩
  · exact absurd havl hne
  · simp

/-- C3: against every legal O strategy, the full-depth Search Player
playing X from the empty board via `get_best_move` ends the game
(`playGame` reaches a terminal outcome) with X-won or draw, never
O-won. -/
theorem full_depth_x_never_loses (σ : Board → Nat)
    (hσ : ∀ b, check_win b = none → σ b ∈ available_moves b) :
    ∃ r, check_win (playGame σ 10 emptyBoard true) = some r ∧ r ≠ Res.mark Cell.O := by
  have hx : xmask emptyBoard = 0 := rfl
  have ho : omask emptyBoard = 0 := rfl
  have hfx : fxcheck 10 (xmask emptyBoard) (omask emptyBoard) true = true := by
    rw [hx, ho]
    exact fxcheck_empty
  exact fxcheck_playGame σ hσ 10 emptyBoard true rfl (fun h => absurd h.1 (by decide)) hfx

/-- Witness for C3: the strategy that always plays the first available
move is legal, and the full-depth X player never loses to it. -/
theorem full_depth_x_never_loses_witness :
    (∀ b : Board, check_win b = none →
      (fun b2 : Board => (available_moves b2).headD 0) b ∈ available_moves b) ∧
    ∃ r, check_win (playGame (fun b2 : Board => (available_moves b2).headD 0)
      10 emptyBoard true) = some r ∧ r ≠ Res.mark Cell.O :=
  ⟨fun b h => headD_legal b h,
   full_depth_x_never_loses (fun b2 : Board => (available_moves b2).headD 0)
     (fun b h => headD_legal b h)⟩

/-! ### Q-learning agent (`src/tictactoe/q_agent.py`)

The Q-table (`defaultdict(float)` keyed by `(state, action)`) is modelled
as an association list with Python-dict semantics: a read of an absent key
appends a `0` binding (`dget`), a write replaces the first binding in
place or appends (`dset`).  Floats are rationals. -/

/-- Numeric state encoding, as handed to the agent by the trainer. -/
abbrev QState := List Int

/-- `_make_key(state, action)`. -/
abbrev QKey := QState × Nat

/-- The Q-table contents. -/
abbrev QTable := List (QKey × ℚ)

/-- Pure observation: the value a lookup returns (0 for absent keys, the
`defaultdict` default). -/
def qlookup (q : QTable) (k : QKey) : ℚ :=
  ((q.find? fun p => p.1 == k).map Prod.snd).getD 0

/-- `defaultdict.__getitem__`: the value, and the table after the read
(inserting the default on a miss). -/
def dget (q : QTable) (k : QKey) : ℚ × QTable :=
  match q.find? fun p => p.1 == k with
  | some p => (p.2, q)
  | none => (0, q ++ [(k, 0)])

/-- `dict.__setitem__`: replace the first binding in place, else append. -/
def dset : QTable → QKey → ℚ → QTable
  | [], k, v => [(k, v)]
  | p :: rest, k, v =>
    if p.1 == k then (k, v) :: rest else p :: dset rest k v

/-- Sequential reads (the generator inside `max(...)`), threading the
table. -/
def dgetMany : QTable → List QKey → List ℚ × QTable
  | q, [] => ([], q)
  | q, k :: rest =>
    let r1 := dget q k
    let r2 := dgetMany r1.2 rest
    (r1.1 :: r2.1, r2.2)

/-- `max` of a nonempty list of floats. -/
def listMax (v : ℚ) (vs : List ℚ) : ℚ := vs.foldl max v

/-- `QLearningAgent._board_from_numeric`. -/
def board_from_numeric (s : QState) : Board :=
  s.map fun v => if v = 0 then Cell.E else if v = 1 then Cell.X else Cell.O

/-- `QLearningAgent.update_q_value(state, action, reward, next_state)`:
the single-step Bellman update
`Q(s,a) ← Q(s,a) + α (r + γ max Q(s',·) − Q(s,a))`, with the
`defaultdict` reads threaded through the table. -/
def update_q_value (α γ : ℚ) (q : QTable) (state : QState) (action : Nat)
    (reward : ℚ) (next_state : QState) : QTable :=
  let key : QKey := (state, action)
  let r0 := dget q key
  let current_q := r0.1
  let next_board := board_from_numeric next_state
  let avail := available_moves next_board
  let r1 :=
    match avail with
    | [] => ((0 : ℚ), r0.2)
    | m :: rest =>
      let r2 := dgetMany r0.2 ((m :: rest).map fun a => (next_state, a))
      (match r2.1 with
       | [] => (0 : ℚ)
       | v :: vs => listMax v vs, r2.2)
  let new_q := current_q + α * (reward + γ * r1.1 - current_q)
  dset r1.2 key new_q

/-- The exploit loop of `_choose_action`: running best value
(`float("-inf")` modelled as `none`) and best move, updated on strict
improvement, scanning moves in order. -/
def chooseScan (q : QTable) (state : QState) :
    List Nat → Option ℚ → Option Nat → Option Nat
  | [], _, bm => bm
  | a :: rest, bv, bm =>
    let val := qlookup q (state, a)
    if (match bv with
        | none => true
        | some v => decide (val > v)) = true then
      chooseScan q state rest (some val) (some a)
    else
      chooseScan q state rest bv bm

/-- `QLearningAgent._choose_action(board, training)`.  `explore` stands
for the outcome of `random.random() < self.epsilon`; `rndE` and `rnd`
stand for the two `random.choice(avail)` draws (each returns an element
of the list it is given).  The final line of the source is
`return best_move or random.choice(avail)`, so a best move of index 0 is
falsy and falls through to the random draw. -/
def choose_action (q : QTable) (b : Board) (training explore : Bool)
    (rndE rnd : List Nat → Nat) : Option Nat :=
  match available_moves b with
  | [] => none
  | m :: rest =>
    if training && explore then some (rndE (m :: rest))
    else
      let state := get_numeric_board b
      match chooseScan q state (m :: rest) none none with
      | some bm => if bm = 0 then some (rnd (m :: rest)) else some bm
      | none => some (rnd (m :: rest))

lemma dget_fst (q : QTable) (k : QKey) : (dget q k).1 = qlookup q k := by
  rcases hf : q.find? fun p => p.1 == k with _ | p
  · rw [dget, hf, qlookup, hf]
    rfl
  · rw [dget, hf, qlookup, hf]
    rfl

lemma dget_lookup (q : QTable) (k : QKey) (k2 : QKey) :
    qlookup (dget q k).2 k2 = qlookup q k2 := by
  rcases hf : q.find? fun p => p.1 == k with _ | p
  · rw [dget, hf]
    show qlookup (q ++ [(k, 0)]) k2 = qlookup q k2
    rw [qlookup, qlookup, List.find?_append]
    rcases hf2 : q.find? fun p => p.1 == k2 with _ | p2
    · rw [hf2, Option.none_or]
      by_cases hk : k = k2
      · subst hk
        rw [show ([((k, 0) : QKey × ℚ)].find? fun p => p.1 == k) = some (k, 0) from
          List.find?_cons_of_pos _ (by simp)]
        rfl
      · rw [show ([((k, 0) : QKey × ℚ)].find? fun p => p.1 == k2) = none from by
          rw [List.find?_eq_none]
          intro x hx
          simp only [List.mem_singleton] at hx
          subst hx
          simp [hk]]
    · rw [hf2]
      rfl
  · rw [dget, hf]

lemma dset_lookup_self (q : QTable) (k : QKey) (v : ℚ) :
    qlookup (dset q k v) k = v := by
  induction q with
  | nil =>
    rw [dset, qlookup]
    rw [show ([((k, v) : QKey × ℚ)].find? fun p => p.1 == k) = some (k, v) from
      List.find?_cons_of_pos _ (by simp)]
    rfl
  | cons p rest ih =>
    rw [dset]
    by_cases hp : (p.1 == k) = true
    · rw [if_pos hp, qlookup,
        show ((((k, v) : QKey × ℚ) :: rest).find? fun x => x.1 == k) = some (k, v) from
          List.find?_cons_of_pos _ (by simp)]
      rfl
    · rw [if_neg hp, qlookup,
        show ((p :: dset rest k v).find? fun x => x.1 == k) =
          ((dset rest k v).find? fun x => x.1 == k) from
          List.find?_cons_of_neg _ hp]
      exact ih

lemma dset_lookup_ne (q : QTable) (k : QKey) (v : ℚ) (k2 : QKey) (h : k2 ≠ k) :
    qlookup (dset q k v) k2 = qlookup q k2 := by
  have hkk2 : (((k, v) : QKey × ℚ).1 == k2) = false := by
    simp only [beq_eq_false_iff_ne, ne_eq]
    exact fun he => h he.symm
  induction q with
  | nil =>
    rw [dset, qlookup, qlookup,
      show ([((k, v) : QKey × ℚ)].find? fun p => p.1 == k2) = none from by
        rw [List.find?_eq_none]
        intro x hx
        simp only [List.mem_singleton] at hx
        subst hx
        simp only [hkk2, Bool.false_eq_true, not_false_eq_true]]
    rfl
  | cons p rest ih =>
    rw [dset]
    by_cases hp : (p.1 == k) = true
    · have hpk : p.1 = k := by simpa using hp
      have hpk2 : (p.1 == k2) = false := by
        rw [hpk]
        simpa using hkk2
      rw [if_pos hp, qlookup, qlookup,
        show ((((k, v) : QKey × ℚ) :: rest).find? fun x => x.1 == k2) =
          (rest.find? fun x => x.1 == k2) from
          List.find?_cons_of_neg _ (by simp [hkk2]),
        show ((p :: rest).find? fun x => x.1 == k2) =
          (rest.find? fun x => x.1 == k2) from
          List.find?_cons_of_neg _ (by simp [hpk2])]
    · rw [if_neg hp]
      by_cases hpk2 : (p.1 == k2) = true
      · rw [qlookup, qlookup,
          show ((p :: dset rest k v).find? fun x => x.1 == k2) = some p from
            List.find?_cons_of_pos _ hpk2,
          show ((p :: rest).find? fun x => x.1 == k2) = some p from
            List.find?_cons_of_pos _ hpk2]
      · rw [qlookup, qlookup,
          show ((p :: dset rest k v).find? fun x => x.1 == k2) =
            ((dset rest k v).find? fun x => x.1 == k2) from
            List.find?_cons_of_neg _ hpk2,
          show ((p :: rest).find? fun x => x.1 == k2) =
            (rest.find? fun x => x.1 == k2) from
            List.find?_cons_of_neg _ hpk2]
        exact ih

lemma dgetMany_spec (ks : List QKey) :
    ∀ q : QTable, (dgetMany q ks).1 = ks.map (qlookup q) ∧
      ∀ k2, qlookup (dgetMany q ks).2 k2 = qlookup q k2 := by
  induction ks with
  | nil => intro q; exact ⟨rfl, fun _ => rfl⟩
  | cons k rest ih =>
    intro q
    rw [dgetMany]
    obtain ⟨ihv, ihl⟩ := ih (dget q k).2
    constructor
    · simp only [List.map_cons, dget_fst, ihv]
      congr 1
      exact List.map_congr_left fun a _ => dget_lookup q k a
    · intro k2
      rw [ihl k2, dget_lookup]

/-- The spec's `max_a' Q(s',a')`: maximum stored value over the legal
moves of the board reconstructed from the successor encoding, 0 when no
move remains. -/
def specMaxNext (q : QTable) (ns : QState) : ℚ :=
  match available_moves (board_from_numeric ns) with
  | [] => 0
  | m :: rest => listMax (qlookup q (ns, m)) (rest.map fun a2 => qlookup q (ns, a2))

/-- C5: the single-step update computes
`Q(s,a) ← Q(s,a) + α (r + γ max Q(s',·) − Q(s,a))`, with the maximum
ranging over the legal moves of the board reconstructed from the
successor encoding (0 when none); the spec's concrete instance (empty
board, centre move, reward 1, α = 0.1, γ = 0.9, fresh table) yields
exactly 0.1. -/
theorem update_q_value_bellman :
    (∀ (α γ : ℚ) (q : QTable) (s : QState) (a : Nat) (r : ℚ) (ns : QState),
      qlookup (update_q_value α γ q s a r ns) (s, a) =
        qlookup q (s, a) + α * (r + γ * specMaxNext q ns - qlookup q (s, a))) ∧
    qlookup (update_q_value (1/10) (9/10) [] (List.replicate 9 0) 4 1
      [0, 0, 0, 0, 1, 0, 0, 0, 0]) (List.replicate 9 0, 4) = 1/10 := by
  have hgen : ∀ (α γ : ℚ) (q : QTable) (s : QState) (a : Nat) (r : ℚ) (ns : QState),
      qlookup (update_q_value α γ q s a r ns) (s, a) =
        qlookup q (s, a) + α * (r + γ * specMaxNext q ns - qlookup q (s, a)) := by
    intro α γ q s a r ns
    rw [update_q_value, specMaxNext]
    rcases havl : available_moves (board_from_numeric ns) with _ | ⟨m, rest⟩
    · simp only
      rw [dset_lookup_self, dget_fst]
    · simp only
      obtain ⟨hvals, hlook⟩ :=
        dgetMany_spec ((m :: rest).map fun a2 => (ns, a2)) (dget q (s, a)).2
      have hvals2 : (dgetMany (dget q (s, a)).2 ((m :: rest).map fun a2 => (ns, a2))).1 =
          qlookup q (ns, m) :: rest.map fun a2 => qlookup q (ns, a2) := by
        rw [hvals, List.map_map]
        simp only [List.map_cons, Function.comp]
        congr 1
        · exact dget_lookup q (s, a) (ns, m)
        · exact List.map_congr_left fun a2 _ => dget_lookup q (s, a) (ns, a2)
      rw [hvals2]
      simp only
      rw [dset_lookup_self, dget_fst]
  refine ⟨hgen, ?_⟩
  rw [hgen]
  have hq0 : qlookup ([] : QTable) (List.replicate 9 0, 4) = 0 := rfl
  have hmax : specMaxNext [] [0, 0, 0, 0, 1, 0, 0, 0, 0] = 0 := by
    rw [specMaxNext]
    rw [show available_moves (board_from_numeric [0, 0, 0, 0, 1, 0, 0, 0, 0]) =
      [0, 1, 2, 3, 5, 6, 7, 8] from rfl]
    simp [qlookup, listMax]
  rw [hq0, hmax]
  norm_num

/-- Witness for the hypothesis-free concrete half is the statement
itself; the universally quantified half is exercised at the same inputs
by `decide` in the proof above. -/
theorem update_q_value_frame (α γ : ℚ) (q : QTable) (s : QState) (a : Nat)
    (r : ℚ) (ns : QState) (k2 : QKey) (h : k2 ≠ (s, a)) :
    qlookup (update_q_value α γ q s a r ns) k2 = qlookup q k2 := by
  rw [update_q_value]
  rcases havl : available_moves (board_from_numeric ns) with _ | ⟨m, rest⟩
  · simp only
    rw [dset_lookup_ne _ _ _ _ h, dget_lookup]
  · simp only
    obtain ⟨hvals, hlook⟩ := dgetMany_spec ((m :: rest).map fun a2 => (ns, a2)) (dget q (s, a)).2
    rw [dset_lookup_ne _ _ _ _ h, hlook, dget_lookup]

/-- Witness for C10 at concrete inputs: updating `(empty, 4)` leaves the
lookup of `(empty, 5)` unchanged. -/
theorem update_q_value_frame_witness :
    (List.replicate 9 (0 : Int), 5) ≠ (List.replicate 9 (0 : Int), 4) ∧
    qlookup (update_q_value (1/10) (9/10) [] (List.replicate 9 0) 4 1
        [0, 0, 0, 0, 1, 0, 0, 0, 0]) (List.replicate 9 0, 5) =
      qlookup [] (List.replicate 9 0, 5) :=
  ⟨by decide,
   update_q_value_frame (1/10) (9/10) [] (List.replicate 9 0) 4 1
     [0, 0, 0, 0, 1, 0, 0, 0, 0] (List.replicate 9 0, 5) (by decide)⟩

/-- The Q-table of the spec's `choose_action` test: move 0 of the empty
board has value 0.5, everything else defaults to 0. -/
def qTableMove0 : QTable := [((List.replicate 9 0, 0), mkRat 1 2)]

/-- C2 (bug evidence): in non-training mode with `qTableMove0`, the scan
correctly finds move 0 as the unique maximum, but the source's final
`return best_move or random.choice(avail)` treats the integer 0 as falsy,
so the call returns the random draw instead of move 0; with a draw of 4
(a legal move, hence a possible outcome of `random.choice`) the result is
move 4, not the move 0 the spec requires. -/
theorem choose_action_move0_falsy_bug :
    chooseScan qTableMove0 (get_numeric_board emptyBoard)
        (available_moves emptyBoard) none none = some 0 ∧
    (4 : Nat) ∈ available_moves emptyBoard ∧
    choose_action qTableMove0 emptyBoard false false (fun _ => 0) (fun _ => 4) =
      some 4 ∧
    choose_action qTableMove0 emptyBoard false false (fun _ => 0) (fun _ => 4) ≠
      some 0 := by
  refine ⟨by decide, by decide, by decide, by decide⟩

/-! ### Trainer credit assignment (`trainer.py`, `_run_games` and
`_train_self_play`)

```
for i, (s, a) in enumerate(reversed(states_buffer)):
    discounted = final_reward * (agent.discount_factor ** i)
    next_s = board.get_numeric_board() if i == 0 else states_buffer[-i][0]
    agent.update_q_value(s, a, discounted, next_s)
```
Both training loops run this identical pass (per agent in self-play). -/

/-- The sequence of `update_q_value` calls one pass makes: for the `i`-th
entry of the reversed buffer, reward `final * γ^i` and successor
`board.get_numeric_board()` when `i = 0`, else `states_buffer[-i][0]`
(Python negative indexing: element `length - i`). -/
def passUpdates (buffer : List (QState × Nat)) (final γ : ℚ)
    (finalState : QState) : List (QState × Nat × ℚ × QState) :=
  buffer.reverse.enum.map fun p =>
    (p.2.1, p.2.2, final * γ ^ p.1,
      if p.1 = 0 then finalState else (buffer.getD (buffer.length - p.1) ([], 0)).1)

/-- The whole pass: fold the updates over the Q-table in order. -/
def learnPass (α γ : ℚ) (q : QTable) (buffer : List (QState × Nat)) (final : ℚ)
    (finalState : QState) : QTable :=
  (passUpdates buffer final γ finalState).foldl
    (fun acc u => update_q_value α γ acc u.1 u.2.1 u.2.2.1 u.2.2.2) q

/-- Spec-side description of the pass: for the `i`-th most recent pair
(0-indexed from the end), one update with reward `final · γ^i` whose next
state is the final post-game encoding when `i = 0` and the pre-move state
of the pair recorded one step later (chronologically next, i.e. the
`(i-1)`-th most recent) for `i > 0`. -/
def specUpdates (buffer : List (QState × Nat)) (final γ : ℚ)
    (finalState : QState) : List (QState × Nat × ℚ × QState) :=
  (List.range buffer.length).map fun i =>
    ((buffer.reverse.getD i ([], 0)).1, (buffer.reverse.getD i ([], 0)).2,
      final * γ ^ i,
      if i = 0 then finalState else (buffer.reverse.getD (i - 1) ([], 0)).1)

/-- C6: the pass applies exactly one update per recorded pair (same
length as the buffer), in reverse chronological order, with reward
`final · γ^i` and the spec's next-state convention. -/
theorem trainer_pass_credit_assignment (buffer : List (QState × Nat))
    (final γ : ℚ) (finalState : QState) :
    passUpdates buffer final γ finalState = specUpdates buffer final γ finalState ∧
    (passUpdates buffer final γ finalState).length = buffer.length := by
  have hlen : (passUpdates buffer final γ finalState).length = buffer.length := by
    unfold passUpdates
    rw [List.length_map, List.enum_length, List.length_reverse]
  refine ⟨?_, hlen⟩
  apply List.ext_getElem
  · rw [hlen]
    unfold specUpdates
    rw [List.length_map, List.length_range]
  · intro i h1 h2
    have hi : i < buffer.length := by rw [hlen] at h1; exact h1
    have hirev : i < buffer.reverse.length := by rw [List.length_reverse]; exact hi
    have hienum : i < buffer.reverse.enum.length := by rw [List.enum_length]; exact hirev
    unfold passUpdates specUpdates
    rw [List.getElem_map, List.getElem_map, List.getElem_enum, List.getElem_range]
    have hgetDrev : buffer.reverse.getD i ([], 0) = buffer.reverse[i] :=
      List.getD_eq_getElem buffer.reverse ([], 0) hirev
    rw [hgetDrev]
    rcases Nat.eq_zero_or_pos i with rfl | hpos
    · rfl
    · have hne : ¬(i = 0) := by omega
      rw [if_neg hne, if_neg hne]
      have hlt1 : buffer.length - i < buffer.length := by omega
      have hlt2 : i - 1 < buffer.reverse.length := by rw [List.length_reverse]; omega
      rw [List.getD_eq_getElem buffer ([], 0) hlt1,
        List.getD_eq_getElem buffer.reverse ([], 0) hlt2,
        List.getElem_reverse]
      rw [List.getElem_reverse]
      have hidx : buffer.length - 1 - (i - 1) = buffer.length - i := by omega
      simp only [hidx]

end TTT
